import Mathlib

/-!
Verification of the crawl-estimate-persist pipeline of SP_Catalog (src/main.go).

Shallow embedding notes:
* Paths are modelled by `GoPath`: a cleaned slash-separated path (absolute flag
  plus component list), mirroring what `filepath.Clean`/`filepath.Join` produce
  during `filepath.WalkDir`.  `goDir`, `goBase`, `goExt` model `filepath.Dir`,
  `filepath.Base`, `filepath.Ext` restricted to such cleaned paths.
* The SQLite store is modelled by association lists (`DB`); the two upsert
  statements (including `ON CONFLICT ... DO UPDATE` with
  `sha256=COALESCE(excluded.sha256, files.sha256)`) are modelled by
  `upsertFolder`/`upsertFile`.
* Transactions are modelled by a committed store plus a pending operation
  buffer; `tx.Commit` applies the pending buffer.  Write failures (statement
  exec or commit) are injected through `Cfg.failOn` indexed by a running
  operation counter, modelling storage errors such as a full disk.
* SHA-256 itself is abstracted as a parameter `digest : List Nat → List Nat`
  assumed (`DigestOK`) to return 32 bytes; the claims under scrutiny concern
  the open/read error plumbing and the hex formatting of `hashFile`, not the
  compression function.  The hex formatting of `fmt.Sprintf("%x", ...)` is
  modelled exactly (`bytesHex`).
* Go's `strings.TrimSpace` is modelled for the Latin-1 white-space characters
  (the ones `unicode.IsSpace` recognises below U+0100); `strings.ToLower` is
  modelled by `Char.toLower`, which agrees with Go on ASCII.
-/

namespace SPCat

/-! ### Character and string helpers (strings.TrimSpace, strings.ToLower, strings.Split) -/

/-- White-space test used by `strings.TrimSpace` (Latin-1 range of `unicode.IsSpace`). -/
def goIsSpace (c : Char) : Bool :=
  c = ' ' || c = '\t' || c = '\n' || c = '\x0b' || c = '\x0c' || c = '\r' ||
  c = '\u0085' || c = ' '

/-- `strings.TrimSpace` on a character list: drop white space from both ends. -/
def goTrim (cs : List Char) : List Char :=
  ((cs.dropWhile goIsSpace).reverse.dropWhile goIsSpace).reverse

/-- `strings.ToLower` (ASCII-faithful). -/
def goToLower (s : String) : String :=
  String.mk (s.toList.map Char.toLower)

/-- `strings.Split(s, ",")` on a character list: split at every comma. -/
def splitOnComma : List Char → List (List Char)
  | [] => [[]]
  | c :: rest =>
    if c = ',' then [] :: splitOnComma rest
    else
      match splitOnComma rest with
      | t :: ts => (c :: t) :: ts
      | [] => [[c]]

/-! ### parseExtSet (src/main.go lines 1488-1504) -/

/-- One token of `parseExtSet`: `strings.ToLower(strings.TrimSpace(e))`. -/
def normTok (cs : List Char) : List Char :=
  (goTrim cs).map Char.toLower

/-- Dot-prefix a normalized nonempty token when the dot is absent. -/
def dotTok (e : List Char) : List Char :=
  if e.head? = some '.' then e else '.' :: e

/-- Insertion into the model of a Go `map[string]struct{}` used as a set. -/
def insertSet (l : List String) (x : String) : List String :=
  if x ∈ l then l else l ++ [x]

/-- The loop body of `parseExtSet`: normalize the token, discard it when
empty, otherwise dot-prefix it and add it to the set. -/
def parseStep (acc : List String) (e : List Char) : List String :=
  let e' := normTok e
  if e' = [] then acc else insertSet acc (String.mk (dotTok e'))

/-- `parseExtSet` from src/main.go: empty input short-circuits to the empty
set; otherwise split on commas, trim and lowercase each token, discard empty
tokens, and dot-prefix the rest. -/
def parseExtSet (s : String) : List String :=
  if s = "" then []
  else (splitOnComma s.toList).foldl parseStep []

/-! ### Hex formatting and hashFile (src/main.go lines 1517-1526) -/

/-- One lowercase hex digit (`%x` formatting), for `n < 16`. -/
def hexDigit (n : Nat) : Char :=
  if n < 10 then Char.ofNat (48 + n) else Char.ofNat (87 + n)

/-- One byte as two lowercase hex digits. -/
def byteHex (b : Nat) : List Char :=
  [hexDigit (b / 16), hexDigit (b % 16)]

/-- The character list of the hex rendering of a byte slice. -/
def hexList (bs : List Nat) : List Char :=
  bs.foldr (fun b acc => byteHex b ++ acc) []

/-- `fmt.Sprintf("%x", bs)` for a byte slice: each byte as two lowercase hex digits. -/
def bytesHex (bs : List Nat) : String :=
  String.mk (hexList bs)

/-- Lowercase hexadecimal digit test. -/
def isLowerHex (c : Char) : Bool :=
  c.isDigit || ('a' ≤ c && c ≤ 'f')

/-- Outcome of opening and streaming a file's content: the open can fail, or
the stream delivers `content` (the bytes successfully read) and `readErr`
records whether `io.Copy` then stopped with a read error. -/
inductive ReadOutcome where
  | openFail
  | readBytes (content : List Nat) (readErr : Bool)
deriving DecidableEq, Repr

/-- A digest function standing for SHA-256: 32 output bytes, each below 256. -/
def DigestOK (digest : List Nat → List Nat) : Prop :=
  ∀ bs, (digest bs).length = 32 ∧ ∀ b ∈ digest bs, b < 256

/-- `hashFile` from src/main.go: empty string when `os.Open` fails; otherwise
the hex digest of the bytes delivered by `io.Copy`, whose error is discarded
(`_, _ = io.Copy(h, f)`), so a read failure partway yields the digest of the
bytes read so far. -/
def hashFile (digest : List Nat → List Nat) : ReadOutcome → String
  | .openFail => ""
  | .readBytes content _ => bytesHex (digest content)

/-! ### Cleaned paths and the filepath helpers used by the pipeline -/

/-- A cleaned slash-separated path: absolute flag plus components. `⟨true, []⟩`
renders as "/", `⟨false, []⟩` renders as ".". -/
structure GoPath where
  isAbs : Bool
  comps : List String
deriving DecidableEq, Repr

/-- Join the components with `'/'` separators. -/
def joinSlash : List String → List Char
  | [] => []
  | [c] => c.toList
  | c :: c' :: cs => c.toList ++ '/' :: joinSlash (c' :: cs)

/-- Render a cleaned path as the string Go manipulates. -/
def GoPath.render (p : GoPath) : String :=
  if p.isAbs then String.mk ('/' :: joinSlash p.comps)
  else if p.comps = [] then "." else String.mk (joinSlash p.comps)

/-- `filepath.Join(p, name)` for a cleaned path and a directory-entry name. -/
def GoPath.child (p : GoPath) (name : String) : GoPath :=
  ⟨p.isAbs, p.comps ++ [name]⟩

/-- `filepath.Dir` on cleaned paths: drop the last component; fixed point on
"/" and ".". -/
def goDir (p : GoPath) : GoPath :=
  { p with comps := p.comps.dropLast }

/-- `filepath.Base` on cleaned paths. -/
def goBase (p : GoPath) : String :=
  match p.comps.getLast? with
  | some c => c
  | none => if p.isAbs then "/" else "."

/-- The suffix of a name starting at its final dot, if any. -/
def lastDotSuffix : List Char → Option (List Char)
  | [] => none
  | c :: rest =>
    match lastDotSuffix rest with
    | some s => some s
    | none => if c = '.' then some (c :: rest) else none

/-- `filepath.Ext`: the suffix beginning at the final dot in the final
path element; empty when there is no dot. -/
def goExt (p : GoPath) : String :=
  match lastDotSuffix (goBase p).toList with
  | some suf => String.mk suf
  | none => ""

/-- The parent path recorded for a directory in the folder upsert
(src/main.go lines 1350-1353): `filepath.Dir(p)`, replaced by the empty
string exactly when `filepath.Dir(p) == p`. -/
def parentOf (p : GoPath) : String :=
  if goDir p = p then "" else (goDir p).render

/-- A well-formed cleaned-path component: nonempty, not ".", no slash
(directory-entry names and components of cleaned paths satisfy this). -/
def wfComp (c : String) : Bool :=
  c ≠ "" && c ≠ "." && !c.toList.contains '/'

/-- All components of the path are well formed. -/
def WFPath (p : GoPath) : Bool :=
  p.comps.all wfComp

/-! ### MIME classification (src/main.go lines 1506-1515) -/

/-- `detectMIME`: `.msg` override, then the platform table (`mimeTable`
standing for `mime.TypeByExtension`, empty string meaning no entry), then the
generic binary fallback. -/
def detectMIME (mimeTable : String → String) (ext : String) : String :=
  if ext = ".msg" then "application/vnd.ms-outlook"
  else
    let mt := mimeTable ext
    if mt ≠ "" then mt else "application/octet-stream"

/-! ### The store: the folders and files relations and their upserts -/

/-- A row of `folders(path, parent_path, mtime_utc)` minus its key. -/
structure FolderRow where
  parent : String
  mtime : String
deriving DecidableEq, Repr

/-- A row of `files(abs_path, folder_path, name, ext, size, mtime_utc, mime,
sha256)` minus its key. -/
structure FileRow where
  folder : String
  name : String
  ext : String
  size : Int
  mtime : String
  mime : String
  sha256 : Option String
deriving DecidableEq, Repr

/-- The two relations, keyed by `path` / `abs_path`. -/
structure DB where
  folders : List (String × FolderRow)
  files : List (String × FileRow)
deriving DecidableEq, Repr

def emptyDB : DB := ⟨[], []⟩

/-- `COALESCE(excluded.sha256, files.sha256)`. -/
def coalesceHash : Option String → Option String → Option String
  | some s, _ => some s
  | none, old => old

/-- The `ON CONFLICT(abs_path) DO UPDATE` clause of the file statement:
overwrite `size`, `mtime_utc`, `mime`; keep the stored hash when the incoming
one is null. -/
def mergeFileRow (old new : FileRow) : FileRow :=
  { old with size := new.size, mtime := new.mtime, mime := new.mime,
             sha256 := coalesceHash new.sha256 old.sha256 }

def upsertFileRows : List (String × FileRow) → String → FileRow → List (String × FileRow)
  | [], k, r => [(k, r)]
  | (k', r') :: rest, k, r =>
    if k' = k then (k', mergeFileRow r' r) :: rest
    else (k', r') :: upsertFileRows rest k r

/-- The file insert-or-update statement. -/
def upsertFile (db : DB) (k : String) (r : FileRow) : DB :=
  { db with files := upsertFileRows db.files k r }

def upsertFolderRows : List (String × FolderRow) → String → FolderRow → List (String × FolderRow)
  | [], k, r => [(k, r)]
  | (k', r') :: rest, k, r =>
    if k' = k then (k', { r' with mtime := r.mtime }) :: rest
    else (k', r') :: upsertFolderRows rest k r

/-- The folder insert-or-update statement
(`ON CONFLICT(path) DO UPDATE SET mtime_utc=excluded.mtime_utc`). -/
def upsertFolder (db : DB) (k : String) (r : FolderRow) : DB :=
  { db with folders := upsertFolderRows db.folders k r }

def lookupRows {α : Type} : List (String × α) → String → Option α
  | [], _ => none
  | (k', r) :: rest, k => if k' = k then some r else lookupRows rest k

def lookupFile (db : DB) (k : String) : Option FileRow :=
  lookupRows db.files k

def lookupFolder (db : DB) (k : String) : Option FolderRow :=
  lookupRows db.folders k

/-- A prepared-statement execution recorded inside a transaction. -/
inductive Op where
  | folderUp (path : String) (row : FolderRow)
  | fileUp (path : String) (row : FileRow)
deriving DecidableEq, Repr

def applyOp (db : DB) : Op → DB
  | .folderUp k r => upsertFolder db k r
  | .fileUp k r => upsertFile db k r

def applyOps (db : DB) (ops : List Op) : DB :=
  ops.foldl applyOp db

/-- The extensions of the file rows currently in the store. -/
def catalogedExts (db : DB) : List String :=
  db.files.map (fun kv => kv.2.ext)

/-! ### The filesystem tree and the WalkDir visit sequence -/

/-- Stat metadata of a file as used by the engine (`info.Size()`, formatted
`info.ModTime().UTC()`). Timestamps are kept abstract as their formatted
strings. -/
structure FileMeta where
  size : Int
  mtime : String
deriving DecidableEq, Repr

/-- Stat metadata of a directory. -/
structure DirMeta where
  mtime : String
deriving DecidableEq, Repr

mutual
/-- A filesystem node. `meta = none` models a `d.Info()` failure for that
entry; `readErr` models a `ReadDir` failure on a directory (children not
walked). `read` is the open/read outcome used when hashing the file. -/
inductive FsNode where
  | file (name : String) (meta : Option FileMeta) (read : ReadOutcome)
  | dir (name : String) (meta : Option DirMeta) (readErr : Bool) (entries : FsForest)
deriving Repr

inductive FsForest where
  | nil
  | cons (n : FsNode) (rest : FsForest)
deriving Repr
end

def FsNode.name : FsNode → String
  | .file n _ _ => n
  | .dir n _ _ _ => n

/-- One callback invocation of `filepath.WalkDir` as both walks observe it
(error-carrying invocations, which both walk functions skip, are omitted;
their only effect — not descending below an unreadable directory — is
reflected by `readErr`). -/
inductive Visit where
  | dirVisit (p : GoPath) (meta : Option DirMeta)
  | fileVisit (p : GoPath) (meta : Option FileMeta) (read : ReadOutcome)
deriving DecidableEq, Repr

def Visit.path : Visit → GoPath
  | .dirVisit p _ => p
  | .fileVisit p _ _ => p

mutual
/-- The `filepath.WalkDir` visit sequence rooted at path `p`: each directory
before its children (lexical entry order is the order of `entries`). -/
def nodeVisits (p : GoPath) : FsNode → List Visit
  | .file _ meta ro => [.fileVisit p meta ro]
  | .dir _ meta readErr entries =>
    .dirVisit p meta :: (if readErr then [] else forestVisits p entries)

def forestVisits (p : GoPath) : FsForest → List Visit
  | .nil => []
  | .cons n rest => nodeVisits (p.child n.name) n ++ forestVisits p rest
end

mutual
/-- No stat failures and no unreadable directories anywhere in the tree. -/
def FsNode.errorFree : FsNode → Bool
  | .file _ meta _ => meta.isSome
  | .dir _ meta readErr entries => meta.isSome && !readErr && entries.errorFree

def FsForest.errorFree : FsForest → Bool
  | .nil => true
  | .cons n rest => n.errorFree && rest.errorFree
end

mutual
/-- Every directory-entry name in the tree is a well-formed name. -/
def FsNode.wfNames : FsNode → Bool
  | .file n _ _ => wfComp n
  | .dir n _ _ entries => wfComp n && entries.wfNames

def FsForest.wfNames : FsForest → Bool
  | .nil => true
  | .cons n rest => n.wfNames && rest.wfNames
end

/-! ### Extension filter check and the estimator (src/main.go lines 1269-1292) -/

/-- The filter check both passes share: with a non-empty filter the lowercased
`filepath.Ext` must be in the set; an empty filter accepts everything. -/
def passesFilter (filter : List String) (p : GoPath) : Bool :=
  if filter.isEmpty then true else filter.contains (goToLower (goExt p))

/-- The visits the estimator counts: non-directories that pass the filter
(the estimator never calls `d.Info()`, so stat failures do not matter to it). -/
def isEstimated (filter : List String) : Visit → Bool
  | .fileVisit p _ _ => passesFilter filter p
  | .dirVisit _ _ => false

/-- `estimateFileCount`: walk the tree and count the non-directory entries
that pass the extension filter; entries delivered with a walk error are
skipped (`return nil // Continue on errors`). -/
def estimateFileCount (filter : List String) (root : GoPath) (tree : FsNode) : Nat :=
  (nodeVisits root tree).countP (isEstimated filter)

/-! ### The crawl-persist engine (scanAndPersist, src/main.go lines 1294-1464) -/

/-- Run configuration: the digest function (SHA-256), the platform MIME table,
the parsed extension filter, the hash flag, the estimator total handed to
progress emissions, and the storage-failure injection (`failOn i` makes the
`i`-th write operation — statement exec or commit — fail). -/
structure Cfg where
  digest : List Nat → List Nat
  mimeTable : String → String
  filter : List String
  hashOn : Bool
  est : Nat
  failOn : Nat → Bool

/-- One progress emission
`progress(files, dirs, lastPath, estimatedTotal)`. -/
structure ProgressEvent where
  files : Nat
  folders : Nat
  lastPath : String
  estimatedTotal : Nat
deriving DecidableEq, Repr

/-- Engine state during the walk: the committed store, the pending operations
of the open transaction, the batch counter, both cumulative counters, the
progress events emitted so far, and the running write-operation index used by
the failure injection. -/
structure EngState where
  committed : DB
  pending : List Op
  batch : Nat
  files : Nat
  dirs : Nat
  events : List ProgressEvent
  opIdx : Nat
deriving DecidableEq, Repr

def initState (db : DB) : EngState :=
  ⟨db, [], 0, 0, 0, [], 0⟩

/-- The file row built for a passing file (src/main.go lines 1398-1411). -/
def mkRow (cfg : Cfg) (p : GoPath) (m : FileMeta) (ro : ReadOutcome) : FileRow :=
  let ext := goToLower (goExt p)
  { folder := (goDir p).render
    name := goBase p
    ext := ext
    size := m.size
    mtime := m.mtime
    mime := detectMIME cfg.mimeTable ext
    sha256 :=
      if cfg.hashOn then
        let s := hashFile cfg.digest ro
        if s = "" then none else some s
      else none }

/-- The store operation a visit gives rise to (none for skipped entries). -/
def visitOp (cfg : Cfg) : Visit → List Op
  | .dirVisit p (some m) => [.folderUp p.render ⟨parentOf p, m.mtime⟩]
  | .dirVisit _ none => []
  | .fileVisit p (some m) ro =>
    if passesFilter cfg.filter p then [.fileUp p.render (mkRow cfg p m ro)] else []
  | .fileVisit _ none _ => []

def visitOps (cfg : Cfg) (vs : List Visit) : List Op :=
  vs.flatMap (visitOp cfg)

/-- Execute one prepared statement inside the open transaction and run the
batch-boundary logic: on the 1000th accumulated operation, commit, emit a
progress event carrying the cumulative counters, the current path and the
estimator total, and open a fresh transaction.  The returned flag is true
when the injected storage failure hit (statment exec or commit), in which
case the state at the failure is returned. -/
def execOp (cfg : Cfg) (st : EngState) (op : Op) (p : GoPath) : EngState × Bool :=
  if cfg.failOn st.opIdx then (st, true)
  else if st.batch + 1 ≥ 1000 then
    if cfg.failOn (st.opIdx + 1) then
      ({ st with pending := st.pending ++ [op], batch := st.batch + 1, opIdx := st.opIdx + 1 }, true)
    else
      ({ st with committed := applyOps st.committed (st.pending ++ [op]), pending := [], batch := 0, opIdx := st.opIdx + 2, events := st.events ++ [⟨st.files, st.dirs, p.render, cfg.est⟩] }, false)
  else
    ({ st with pending := st.pending ++ [op], batch := st.batch + 1, opIdx := st.opIdx + 1 }, false)

/-- Process one WalkDir visit: the directory branch (src/main.go lines
1348-1388) and the file branch (lines 1391-1448). -/
def stepVisit (cfg : Cfg) (st : EngState) : Visit → EngState × Bool
  | .dirVisit _ none => (st, false)
  | .dirVisit p (some m) =>
    let st := { st with dirs := st.dirs + 1 }
    execOp cfg st (.folderUp p.render ⟨parentOf p, m.mtime⟩) p
  | .fileVisit _ none _ => (st, false)
  | .fileVisit p (some m) ro =>
    if passesFilter cfg.filter p then
      let st := { st with files := st.files + 1 }
      execOp cfg st (.fileUp p.render (mkRow cfg p m ro)) p
    else (st, false)

/-- Fold the visit sequence, stopping at the first storage failure. -/
def runVisits (cfg : Cfg) (st : EngState) : List Visit → EngState × Bool
  | [] => (st, false)
  | v :: vs =>
    match stepVisit cfg st v with
    | (st', false) => runVisits cfg st' vs
    | (st', true) => (st', true)

/-- Result of a `scanAndPersist` run: the progress events, the durable store,
the error (the failing operation index) if any, and the final counters. -/
structure ScanResult where
  events : List ProgressEvent
  db : DB
  err : Option Nat
  files : Nat
  dirs : Nat
deriving Repr

/-- `scanAndPersist`: walk from the (cleaned) root over the initial store
`init`.  On a walk error the open transaction is rolled back (the pending
buffer is discarded, the committed store stands).  On success the final
commit applies the open transaction, and a last progress event with an empty
path sentinel fires.  Index creation after the final commit does not change
either relation and is not modelled. -/
def scanAndPersist (cfg : Cfg) (init : DB) (root : GoPath) (tree : FsNode) : ScanResult :=
  let r := runVisits cfg (initState init) (nodeVisits root tree)
  let st := r.1
  if r.2 then ⟨st.events, st.committed, some st.opIdx, st.files, st.dirs⟩
  else if cfg.failOn st.opIdx then ⟨st.events, st.committed, some st.opIdx, st.files, st.dirs⟩
  else
    ⟨st.events ++ [⟨st.files, st.dirs, "", cfg.est⟩],
     applyOps st.committed st.pending, none, st.files, st.dirs⟩

/-- A message delivered to the caller's event loop. -/
inductive Msg where
  | progress (e : ProgressEvent)
  | done (err : Option Nat)
deriving DecidableEq, Repr

def Msg.isDone : Msg → Bool
  | .done _ => true
  | .progress _ => false

/-- The message stream a `scanAndPersist` run delivers: each progress
callback becomes a progress message, followed by exactly one terminal done
message carrying the error. -/
def scanMsgs (cfg : Cfg) (init : DB) (root : GoPath) (tree : FsNode) : List Msg :=
  let res := scanAndPersist cfg init root tree
  res.events.map Msg.progress ++ [Msg.done res.err]

/-- `runScan`: estimate first, then scan with the estimate as the progress
total. -/
def runScan (digest : List Nat → List Nat) (mimeTable : String → String)
    (filter : List String) (hashOn : Bool) (failOn : Nat → Bool)
    (init : DB) (root : GoPath) (tree : FsNode) : List Msg :=
  let est := estimateFileCount filter root tree
  scanMsgs ⟨digest, mimeTable, filter, hashOn, est, failOn⟩ init root tree

/-- The normalized extensions of the files the walk visits. -/
def treeExts (root : GoPath) (tree : FsNode) : List String :=
  (nodeVisits root tree).filterMap fun v =>
    match v with
    | .fileVisit p _ _ => some (goToLower (goExt p))
    | .dirVisit _ _ => none

/-- The file-branch visits the engine counts and upserts: the stat succeeded
and the filter passed. -/
def isCountedFile (cfg : Cfg) : Visit → Bool
  | .fileVisit p (some _) _ => passesFilter cfg.filter p
  | _ => false

/-- The directory visits the engine counts and upserts: the stat succeeded. -/
def isCountedDir : Visit → Bool
  | .dirVisit _ (some _) => true
  | _ => false

/-- The simulation relation between an engine state, the initial store and
the operation sequence generated by the visits processed so far: the
committed store holds exactly the full thousand-operation batches, the open
transaction holds the remainder, the batch counter counts the open
transaction, and the full batches correspond one-to-one with the emitted
progress events. -/
def DbInv (init : DB) (opsDone : List Op) (st : EngState) : Prop :=
  st.committed = applyOps init (opsDone.take (1000 * st.events.length)) ∧
  st.pending = opsDone.drop (1000 * st.events.length) ∧
  st.batch = st.pending.length ∧
  st.batch < 1000 ∧
  opsDone.length = 1000 * st.events.length + st.batch

/-- Invariant on the emitted progress events and the counters: the `i`-th
intermediate event was emitted when the cumulative upsert count reached
`1000 * (i + 1)` and carries the then-current counters, a nonempty current
path, and the estimator total; the counters always sum to the upserts
performed so far. -/
def EvInv (cfg : Cfg) (st : EngState) : Prop :=
  (∀ i (hi : i < st.events.length),
     (st.events.get ⟨i, hi⟩).files + (st.events.get ⟨i, hi⟩).folders = 1000 * (i + 1) ∧
     (st.events.get ⟨i, hi⟩).estimatedTotal = cfg.est ∧
     (st.events.get ⟨i, hi⟩).lastPath ≠ "") ∧
  st.files + st.dirs = 1000 * st.events.length + st.batch ∧
  st.batch < 1000

/-! ### Concrete instances used by witnesses and counterexamples -/

/-- A concrete 32-byte digest function. -/
def digest0 : List Nat → List Nat := fun _ => List.replicate 32 0

/-- A baseline configuration: empty filter, hashing off, no injected failure. -/
def cfg0 : Cfg :=
  ⟨digest0, fun _ => "", [], false, 0, fun _ => false⟩

/-- A configuration whose filter is `{".pdf"}`. -/
def cfgPdf : Cfg :=
  ⟨digest0, fun _ => "", [".pdf"], false, 0, fun _ => false⟩

/-- A configuration whose first write operation fails. -/
def cfgFail0 : Cfg :=
  ⟨digest0, fun _ => "", [], false, 0, fun i => i = 0⟩

/-- A two-level tree: root directory, one text file, a subdirectory with one
PDF file. -/
def tree0 : FsNode :=
  .dir "r" (some ⟨"tr"⟩) false
    (.cons (.file "a.txt" (some ⟨5, "ta"⟩) (.readBytes [1, 2] false))
      (.cons (.dir "sub" (some ⟨"ts"⟩) false
        (.cons (.file "b.PDF" (some ⟨7, "tb"⟩) .openFail) .nil))
        .nil))

/-- A root directory with a single text file whose stat (`d.Info()`) fails. -/
def treeStatErr : FsNode :=
  .dir "r" (some ⟨"tr"⟩) false (.cons (.file "a.txt" none .openFail) .nil)

/-- A root directory holding a single readable text file. -/
def treeTxt : FsNode :=
  .dir "r" (some ⟨"tr"⟩) false (.cons (.file "a.txt" (some ⟨1, "ta"⟩) .openFail) .nil)

/-- A bare directory, used as a crawl root. -/
def treeLone : FsNode :=
  .dir "a" (some ⟨"tr"⟩) false .nil

/-- A file row whose hash is recorded. -/
def rowHashed : FileRow :=
  ⟨"/", "a.txt", ".txt", 1, "t1", "m1", some "aa"⟩

/-- An incoming file row that lacks a hash. -/
def rowNoHash : FileRow :=
  ⟨"/", "a.txt", ".txt", 2, "t2", "m2", none⟩

/-- A store already holding one hashed file row. -/
def dbW : DB :=
  ⟨[], [("/a.txt", rowHashed)]⟩

/-- The engine state after processing one directory visit of `/` from the
fresh initial state. -/
def stW4 : EngState :=
  ⟨emptyDB, [Op.folderUp "/" ⟨"", "t"⟩], 1, 0, 1, [], 1⟩

end SPCat

namespace SPCat

/-! ## Helper lemmas -/

theorem mem_insertSet {l : List String} {x t : String} :
    t ∈ insertSet l x ↔ t ∈ l ∨ t = x := by
  unfold insertSet
  split
  · rename_i hx
    constructor
    · exact Or.inl
    · rintro (h | rfl)
      · exact h
      · exact hx
  · simp

theorem mem_foldl_parseStep (toks : List (List Char)) (acc : List String) (t : String) :
    t ∈ toks.foldl parseStep acc ↔
      t ∈ acc ∨ ∃ tok ∈ toks, normTok tok ≠ [] ∧ t = String.mk (dotTok (normTok tok)) := by
  induction toks generalizing acc with
  | nil => simp
  | cons e toks ih =>
    rw [List.foldl_cons, ih]
    by_cases h : normTok e = []
    · simp [parseStep, h]
    · have hstep : parseStep acc e = insertSet acc (String.mk (dotTok (normTok e))) := by
        simp [parseStep, h]
      rw [hstep, mem_insertSet]
      constructor
      · rintro ((ha | rfl) | ⟨tok, htok, hne, rfl⟩)
        · exact Or.inl ha
        · exact Or.inr ⟨e, List.mem_cons_self e toks, h, rfl⟩
        · exact Or.inr ⟨tok, List.mem_cons_of_mem e htok, hne, rfl⟩
      · rintro (ha | ⟨tok, htok, hne, rfl⟩)
        · exact Or.inl (Or.inl ha)
        · rcases List.mem_cons.mp htok with rfl | htok'
          · exact Or.inl (Or.inr rfl)
          · exact Or.inr ⟨tok, htok', hne, rfl⟩

/-! ## C8: extension-filter parsing -/

/-- C8: `parseExtSet` maps the empty input to the empty set, and in general a
string belongs to the parsed set exactly when some comma-separated token of
the input, after trimming white space and lowercasing, is nonempty and equals
it once a leading dot is prefixed (when absent). -/
theorem c8_parse_ext_set :
    parseExtSet "" = [] ∧
    ∀ (s t : String),
      t ∈ parseExtSet s ↔
        ∃ tok ∈ splitOnComma s.toList,
          normTok tok ≠ [] ∧ t = String.mk (dotTok (normTok tok)) := by
  refine ⟨rfl, fun s t => ?_⟩
  unfold parseExtSet
  split
  · rename_i hs
    subst hs
    constructor
    · intro h
      exact absurd h (List.not_mem_nil t)
    · rintro ⟨tok, htok, hne, -⟩
      have h1 : splitOnComma ("" : String).toList = [[]] := rfl
      rw [h1] at htok
      have htok' : tok = [] := by simpa using htok
      subst htok'
      exact (hne rfl).elim
  · rw [mem_foldl_parseStep]
    simp

/-! ## C2 and C9: the content hasher -/

theorem hexList_length (bs : List Nat) : (hexList bs).length = 2 * bs.length := by
  induction bs with
  | nil => rfl
  | cons b bs ih =>
    simp [hexList, byteHex] at ih ⊢
    omega

theorem hexDigit_isLowerHex (n : Nat) (h : n < 16) : isLowerHex (hexDigit n) = true := by
  interval_cases n <;> decide

theorem mem_hexList_isLowerHex (bs : List Nat) (h : ∀ b ∈ bs, b < 256) :
    ∀ c ∈ hexList bs, isLowerHex c = true := by
  induction bs with
  | nil => intro c hc; exact absurd hc (List.not_mem_nil c)
  | cons b bs ih =>
    intro c hc
    have hb : b < 256 := h b (List.mem_cons_self b bs)
    simp only [hexList, List.foldr_cons, byteHex, List.cons_append, List.nil_append,
      List.mem_cons] at hc
    rcases hc with rfl | rfl | hc
    · exact hexDigit_isLowerHex _ (by omega)
    · exact hexDigit_isLowerHex _ (by omega)
    · exact ih (fun b' hb' => h b' (List.mem_cons_of_mem b hb')) c hc

theorem bytesHex_length (bs : List Nat) : (bytesHex bs).length = 2 * bs.length :=
  hexList_length bs

theorem digest0_ok : DigestOK digest0 := by
  intro bs
  refine ⟨by simp [digest0], ?_⟩
  intro b hb
  have : b = 0 := List.eq_of_mem_replicate hb
  omega

/-- C9: under a 32-byte digest function, `hashFile` returns either the empty
string or a 64-character lowercase-hex string; and when the file opens but a
read error occurs partway through, the result is the (64-character, nonempty)
digest of the bytes read so far. -/
theorem c9_hash_output_shape (digest : List Nat → List Nat) (H : DigestOK digest) :
    (∀ ro, hashFile digest ro = "" ∨
       ((hashFile digest ro).length = 64 ∧
        ∀ c ∈ (hashFile digest ro).toList, isLowerHex c = true)) ∧
    (∀ content : List Nat,
       hashFile digest (.readBytes content true) = bytesHex (digest content) ∧
       (hashFile digest (.readBytes content true)).length = 64 ∧
       hashFile digest (.readBytes content true) ≠ "") := by
  have len : ∀ content : List Nat, (bytesHex (digest content)).length = 64 := by
    intro content
    rw [bytesHex_length, (H content).1]
  have key : ∀ (content : List Nat) (b : Bool),
      hashFile digest (.readBytes content b) = bytesHex (digest content) := fun _ _ => rfl
  refine ⟨?_, ?_⟩
  · intro ro
    cases ro with
    | openFail => exact Or.inl rfl
    | readBytes content b =>
      refine Or.inr ⟨len content, ?_⟩
      intro c hc
      exact mem_hexList_isLowerHex (digest content) (H content).2 c hc
  · intro content
    refine ⟨key content true, len content, ?_⟩
    intro hemp
    have h64 := len content
    rw [← key content true, hemp] at h64
    exact absurd h64 (by decide)

/-- C9 witness at the concrete digest `digest0` and an immediately failing
read. -/
theorem c9_hash_output_shape_witness :
    (hashFile digest0 (.readBytes [] true)).length = 64 :=
  ((c9_hash_output_shape digest0 digest0_ok).2 []).2.1

/-- C2 counterexample: a file that opens but suffers a read error before any
byte is read produces the 64-character digest of the empty byte sequence, not
the empty result the claim requires for a file that cannot be read. -/
theorem c2_hasher_counterexample :
    hashFile digest0 (.readBytes [] true) = String.mk (List.replicate 64 '0') ∧
    hashFile digest0 (.readBytes [] true) ≠ "" := by
  constructor <;> decide

/-- C2 amended: `hashFile` returns the empty string exactly for files that
cannot be opened; once the file opens, read errors are swallowed and the
result is the (nonempty) hex digest of the bytes read before the error; no
error is ever propagated (the function is total). -/
theorem c2_hasher_amended (digest : List Nat → List Nat) (H : DigestOK digest) :
    hashFile digest .openFail = "" ∧
    (∀ (content : List Nat) (readErr : Bool),
       hashFile digest (.readBytes content readErr) = bytesHex (digest content) ∧
       hashFile digest (.readBytes content readErr) ≠ "") := by
  refine ⟨rfl, ?_⟩
  intro content readErr
  refine ⟨rfl, ?_⟩
  intro hemp
  have h64 : (hashFile digest (.readBytes content readErr)).length = 64 := by
    show (bytesHex (digest content)).length = 64
    rw [bytesHex_length, (H content).1]
  rw [hemp] at h64
  exact absurd h64 (by decide)

/-- C2 amended witness at the concrete digest `digest0`. -/
theorem c2_hasher_amended_witness :
    hashFile digest0 .openFail = "" ∧ hashFile digest0 (.readBytes [1] true) ≠ "" :=
  ⟨(c2_hasher_amended digest0 digest0_ok).1,
   ((c2_hasher_amended digest0 digest0_ok).2 [1] true).2⟩

/-! ## C1: sticky hash -/

theorem lookupRows_upsertFileRows (rows : List (String × FileRow)) (k : String) (r : FileRow) :
    lookupRows (upsertFileRows rows k r) k =
      some (match lookupRows rows k with
            | some old => mergeFileRow old r
            | none => r) := by
  induction rows with
  | nil => simp [upsertFileRows, lookupRows]
  | cons hd tl ih =>
    obtain ⟨k', r'⟩ := hd
    by_cases h : k' = k
    · subst h
      simp [upsertFileRows, lookupRows]
    · simp [upsertFileRows, lookupRows, h, ih]

theorem lookupRows_upsertFileRows_ne (rows : List (String × FileRow)) (k k' : String)
    (r : FileRow) (h : k' ≠ k) :
    lookupRows (upsertFileRows rows k' r) k = lookupRows rows k := by
  induction rows with
  | nil => simp [upsertFileRows, lookupRows, h]
  | cons hd tl ih =>
    obtain ⟨k0, r0⟩ := hd
    by_cases h0 : k0 = k'
    · subst h0
      simp [upsertFileRows, lookupRows, h]
    · simp [upsertFileRows, lookupRows, h0, ih]

theorem lookupFile_upsertFolder (db : DB) (k k0 : String) (r : FolderRow) :
    lookupFile (upsertFolder db k r) k0 = lookupFile db k0 := rfl

theorem sticky_after_ops (ops : List Op) :
    ∀ (db : DB) (k : String),
      (∃ r, lookupFile db k = some r ∧ r.sha256 ≠ none) →
      ∃ r', lookupFile (applyOps db ops) k = some r' ∧ r'.sha256 ≠ none := by
  induction ops with
  | nil => exact fun db k h => h
  | cons op tl ih =>
    rintro db k ⟨r, hr, hs⟩
    show ∃ r', lookupFile ((op :: tl).foldl applyOp db) k = some r' ∧ r'.sha256 ≠ none
    rw [List.foldl_cons]
    apply ih
    cases op with
    | folderUp k' row => exact ⟨r, hr, hs⟩
    | fileUp k' row =>
      by_cases h : k' = k
      · subst h
        refine ⟨mergeFileRow r row, ?_, ?_⟩
        · show lookupRows (upsertFileRows db.files k' row) k' = _
          rw [lookupRows_upsertFileRows]
          show some _ = _
          rw [show lookupRows db.files k' = some r from hr]
        · show coalesceHash row.sha256 r.sha256 ≠ none
          cases hrow : row.sha256 with
          | some s => simp [coalesceHash]
          | none => simpa [coalesceHash] using hs
      · refine ⟨r, ?_, hs⟩
        show lookupRows (upsertFileRows db.files k' row) k = _
        rw [lookupRows_upsertFileRows_ne db.files k k' row h]
        exact hr

/-- C1: the file upsert on `abs_path` overwrites `size`, `mtime_utc` and
`mime` unconditionally; `sha256` becomes the incoming value exactly when that
value is non-null and otherwise keeps the stored one; and once a non-null
hash is recorded for a key, it stays non-null across any further sequence of
store operations. -/
theorem c1_sticky_hash (db : DB) (k : String) (old r : FileRow)
    (h : lookupFile db k = some old) :
    lookupFile (upsertFile db k r) k =
        some { old with size := r.size, mtime := r.mtime, mime := r.mime, sha256 := coalesceHash r.sha256 old.sha256 } ∧
    (∀ s, r.sha256 = some s → coalesceHash r.sha256 old.sha256 = some s) ∧
    (r.sha256 = none → coalesceHash r.sha256 old.sha256 = old.sha256) ∧
    (old.sha256 ≠ none → ∀ ops : List Op,
       ∃ r', lookupFile (applyOps db ops) k = some r' ∧ r'.sha256 ≠ none) := by
  refine ⟨?_, ?_, ?_, ?_⟩
  · show lookupRows (upsertFileRows db.files k r) k = _
    rw [lookupRows_upsertFileRows]
    rw [show lookupRows db.files k = some old from h]
    rfl
  · intro s hs
    simp [hs, coalesceHash]
  · intro hs
    simp [hs, coalesceHash]
  · intro h0 ops
    exact sticky_after_ops ops db k ⟨old, h, h0⟩

/-- C1 witness: a store holding a hashed row keeps a non-null hash after an
upsert whose incoming hash is null. -/
theorem c1_sticky_hash_witness :
    lookupFile dbW "/a.txt" = some rowHashed ∧
    ∃ r', lookupFile (applyOps dbW [Op.fileUp "/a.txt" rowNoHash]) "/a.txt" = some r' ∧
      r'.sha256 ≠ none :=
  ⟨by decide,
   (c1_sticky_hash dbW "/a.txt" rowHashed rowNoHash (by decide)).2.2.2 (by decide) _⟩

/-! ## Engine simulation lemmas -/

theorem execOp_false_spec (cfg : Cfg) (st : EngState) (op : Op) (p : GoPath) (st' : EngState)
    (h : execOp cfg st op p = (st', false)) :
    (st.batch + 1 < 1000 ∧
      st' = { st with pending := st.pending ++ [op], batch := st.batch + 1, opIdx := st.opIdx + 1 }) ∨
    (st.batch + 1 ≥ 1000 ∧
      st' = { st with committed := applyOps st.committed (st.pending ++ [op]), pending := [], batch := 0, opIdx := st.opIdx + 2, events := st.events ++ [⟨st.files, st.dirs, p.render, cfg.est⟩] }) := by
  unfold execOp at h
  by_cases h1 : cfg.failOn st.opIdx
  · rw [if_pos h1] at h
    exact absurd (congrArg Prod.snd h) (by simp)
  · rw [if_neg h1] at h
    by_cases h2 : st.batch + 1 ≥ 1000
    · rw [if_pos h2] at h
      by_cases h3 : cfg.failOn (st.opIdx + 1)
      · rw [if_pos h3] at h
        exact absurd (congrArg Prod.snd h) (by simp)
      · rw [if_neg h3] at h
        exact Or.inr ⟨h2, (congrArg Prod.fst h).symm⟩
    · rw [if_neg h2] at h
      exact Or.inl ⟨by omega, (congrArg Prod.fst h).symm⟩

theorem execOp_fail_frame (cfg : Cfg) (st : EngState) (op : Op) (p : GoPath) (st' : EngState)
    (h : execOp cfg st op p = (st', true)) :
    st'.committed = st.committed ∧ st'.events = st.events := by
  unfold execOp at h
  by_cases h1 : cfg.failOn st.opIdx
  · rw [if_pos h1] at h
    have := (congrArg Prod.fst h).symm
    subst this
    exact ⟨rfl, rfl⟩
  · rw [if_neg h1] at h
    by_cases h2 : st.batch + 1 ≥ 1000
    · rw [if_pos h2] at h
      by_cases h3 : cfg.failOn (st.opIdx + 1)
      · rw [if_pos h3] at h
        have := (congrArg Prod.fst h).symm
        subst this
        exact ⟨rfl, rfl⟩
      · rw [if_neg h3] at h
        exact absurd (congrArg Prod.snd h) (by simp)
    · rw [if_neg h2] at h
      exact absurd (congrArg Prod.snd h) (by simp)

theorem execOp_counters (cfg : Cfg) (st : EngState) (op : Op) (p : GoPath) :
    (execOp cfg st op p).1.files = st.files ∧ (execOp cfg st op p).1.dirs = st.dirs := by
  unfold execOp
  split_ifs <;> exact ⟨rfl, rfl⟩

theorem execOp_noFail (cfg : Cfg) (hnf : ∀ i, cfg.failOn i = false)
    (st : EngState) (op : Op) (p : GoPath) :
    (execOp cfg st op p).2 = false := by
  unfold execOp
  simp only [hnf]
  split_ifs <;> simp_all

theorem execOp_DbInv (cfg : Cfg) (init : DB) (opsDone : List Op)
    (st st' : EngState) (op : Op) (p : GoPath)
    (hinv : DbInv init opsDone st) (h : execOp cfg st op p = (st', false)) :
    DbInv init (opsDone ++ [op]) st' := by
  obtain ⟨hc, hp, hb, hblt, hlen⟩ := hinv
  have hle : 1000 * st.events.length ≤ opsDone.length := by omega
  rcases execOp_false_spec cfg st op p st' h with ⟨hlt, rfl⟩ | ⟨hge, rfl⟩
  · refine ⟨?_, ?_, ?_, ?_, ?_⟩
    · show st.committed = applyOps init ((opsDone ++ [op]).take (1000 * st.events.length))
      rw [List.take_append_of_le_length hle]
      exact hc
    · show st.pending ++ [op] = (opsDone ++ [op]).drop (1000 * st.events.length)
      rw [List.drop_append_of_le_length hle, hp]
    · show st.batch + 1 = (st.pending ++ [op]).length
      simp [hb]
    · exact hlt
    · show (opsDone ++ [op]).length = 1000 * st.events.length + (st.batch + 1)
      simp [hlen]
      omega
  · have hbe : st.batch + 1 = 1000 := by omega
    have hfull : (opsDone ++ [op]).length = 1000 * (st.events.length + 1) := by
      simp [hlen]; omega
    refine ⟨?_, ?_, ?_, ?_, ?_⟩
    · show applyOps st.committed (st.pending ++ [op]) =
        applyOps init ((opsDone ++ [op]).take (1000 * (st.events ++ [_]).length))
      have hlen' : (st.events ++ [(⟨st.files, st.dirs, p.render, cfg.est⟩ : ProgressEvent)]).length
          = st.events.length + 1 := by simp
      rw [hlen', ← hfull, List.take_length (opsDone ++ [op])]
      rw [hc, hp]
      show applyOps (applyOps init (opsDone.take (1000 * st.events.length)))
          ((opsDone.drop (1000 * st.events.length)) ++ [op]) = _
      unfold applyOps
      rw [← List.foldl_append, ← List.append_assoc, List.take_append_drop]
    · show ([] : List Op) = (opsDone ++ [op]).drop (1000 * (st.events ++ [_]).length)
      have hlen' : (st.events ++ [(⟨st.files, st.dirs, p.render, cfg.est⟩ : ProgressEvent)]).length
          = st.events.length + 1 := by simp
      rw [hlen', ← hfull, List.drop_length (opsDone ++ [op])]
    · rfl
    · show (0 : Nat) < 1000
      omega
    · show (opsDone ++ [op]).length = 1000 * (st.events ++ [_]).length + 0
      simp [hfull]

theorem stepVisit_DbInv (cfg : Cfg) (init : DB) (opsDone : List Op)
    (st st' : EngState) (v : Visit)
    (hinv : DbInv init opsDone st) (h : stepVisit cfg st v = (st', false)) :
    DbInv init (opsDone ++ visitOp cfg v) st' := by
  cases v with
  | dirVisit p meta =>
    cases meta with
    | none =>
      have hst : st' = st := congrArg Prod.fst h.symm
      subst hst
      simpa [visitOp] using hinv
    | some m =>
      have h' : execOp cfg { st with dirs := st.dirs + 1 }
          (.folderUp p.render ⟨parentOf p, m.mtime⟩) p = (st', false) := h
      show DbInv init (opsDone ++ [Op.folderUp p.render ⟨parentOf p, m.mtime⟩]) st'
      exact execOp_DbInv cfg init opsDone { st with dirs := st.dirs + 1 } st' _ p hinv h'
  | fileVisit p meta ro =>
    cases meta with
    | none =>
      have hst : st' = st := congrArg Prod.fst h.symm
      subst hst
      simpa [visitOp] using hinv
    | some m =>
      by_cases hf : passesFilter cfg.filter p
      · have h' : execOp cfg { st with files := st.files + 1 }
            (.fileUp p.render (mkRow cfg p m ro)) p = (st', false) := by
          simpa [stepVisit, hf] using h
        have : visitOp cfg (.fileVisit p (some m) ro) = [.fileUp p.render (mkRow cfg p m ro)] := by
          simp [visitOp, hf]
        rw [this]
        exact execOp_DbInv cfg init opsDone { st with files := st.files + 1 } st' _ p hinv h'
      · have hstep : stepVisit cfg st (.fileVisit p (some m) ro) = (st, false) := by
          simp [stepVisit, hf]
        rw [hstep] at h
        have hst : st' = st := (congrArg Prod.fst h).symm
        subst hst
        simpa [visitOp, hf] using hinv

theorem stepVisit_fail_frame (cfg : Cfg) (st st' : EngState) (v : Visit)
    (h : stepVisit cfg st v = (st', true)) :
    st'.committed = st.committed ∧ st'.events = st.events := by
  cases v with
  | dirVisit p meta =>
    cases meta with
    | none => exact absurd (congrArg Prod.snd h) (by simp [stepVisit])
    | some m =>
      exact execOp_fail_frame cfg { st with dirs := st.dirs + 1 } _ p st' h
  | fileVisit p meta ro =>
    cases meta with
    | none => exact absurd (congrArg Prod.snd h) (by simp [stepVisit])
    | some m =>
      by_cases hf : passesFilter cfg.filter p
      · have h' : execOp cfg { st with files := st.files + 1 }
            (.fileUp p.render (mkRow cfg p m ro)) p = (st', true) := by
          simpa [stepVisit, hf] using h
        exact execOp_fail_frame cfg { st with files := st.files + 1 } _ p st' h'
      · exact absurd (congrArg Prod.snd h) (by simp [stepVisit, hf])

theorem stepVisit_noFail (cfg : Cfg) (hnf : ∀ i, cfg.failOn i = false)
    (st : EngState) (v : Visit) :
    (stepVisit cfg st v).2 = false := by
  cases v with
  | dirVisit p meta =>
    cases meta with
    | none => rfl
    | some m => exact execOp_noFail cfg hnf _ _ p
  | fileVisit p meta ro =>
    cases meta with
    | none => rfl
    | some m =>
      by_cases hf : passesFilter cfg.filter p
      · simp only [stepVisit, hf, if_pos]
        exact execOp_noFail cfg hnf _ _ p
      · simp [stepVisit, hf]

theorem stepVisit_counters (cfg : Cfg) (st st' : EngState) (v : Visit) (f : Bool)
    (h : stepVisit cfg st v = (st', f)) :
    st'.files = st.files + (if isCountedFile cfg v then 1 else 0) ∧
    st'.dirs = st.dirs + (if isCountedDir v then 1 else 0) := by
  have hfst : (stepVisit cfg st v).1 = st' := congrArg Prod.fst h
  cases v with
  | dirVisit p meta =>
    cases meta with
    | none =>
      rw [← hfst]
      simp [stepVisit, isCountedFile, isCountedDir]
    | some m =>
      rw [← hfst]
      have hc := execOp_counters cfg { st with dirs := st.dirs + 1 }
        (.folderUp p.render ⟨parentOf p, m.mtime⟩) p
      simpa [stepVisit, isCountedFile, isCountedDir] using hc
  | fileVisit p meta ro =>
    cases meta with
    | none =>
      rw [← hfst]
      simp [stepVisit, isCountedFile, isCountedDir]
    | some m =>
      by_cases hf : passesFilter cfg.filter p
      · rw [← hfst]
        have hc := execOp_counters cfg { st with files := st.files + 1 }
          (.fileUp p.render (mkRow cfg p m ro)) p
        simpa [stepVisit, isCountedFile, isCountedDir, hf] using hc
      · rw [← hfst]
        simp [stepVisit, isCountedFile, isCountedDir, hf]

theorem visitOps_cons (cfg : Cfg) (v : Visit) (vs : List Visit) :
    visitOps cfg (v :: vs) = visitOp cfg v ++ visitOps cfg vs :=
  List.flatMap_cons v vs (visitOp cfg)

theorem DbInv_init (init : DB) : DbInv init [] (initState init) := by
  refine ⟨?_, ?_, rfl, ?_, rfl⟩ <;> norm_num [initState, applyOps]

theorem runVisits_DbInv (cfg : Cfg) (init : DB) (vs : List Visit) :
    ∀ (opsDone : List Op) (st : EngState), DbInv init opsDone st →
      (∀ st', runVisits cfg st vs = (st', false) →
        DbInv init (opsDone ++ visitOps cfg vs) st') ∧
      (∀ st', runVisits cfg st vs = (st', true) →
        st'.committed =
          applyOps init ((opsDone ++ visitOps cfg vs).take (1000 * st'.events.length))) := by
  induction vs with
  | nil =>
    intro opsDone st hinv
    constructor
    · intro st' h
      have hst : st = st' := congrArg Prod.fst h
      subst hst
      simpa [visitOps] using hinv
    · intro st' h
      exact absurd (congrArg Prod.snd h) (by simp [runVisits])
  | cons v vs ih =>
    intro opsDone st hinv
    have hrw : ∀ st₂ f, stepVisit cfg st v = (st₂, f) →
        runVisits cfg st (v :: vs) = if f then (st₂, true) else runVisits cfg st₂ vs := by
      intro st₂ f hstep
      cases f <;> simp [runVisits, hstep]
    obtain ⟨st₂, f, hstep⟩ : ∃ st₂ f, stepVisit cfg st v = (st₂, f) :=
      ⟨(stepVisit cfg st v).1, (stepVisit cfg st v).2, rfl⟩
    cases f with
    | false =>
      have hinv₂ : DbInv init (opsDone ++ visitOp cfg v) st₂ :=
        stepVisit_DbInv cfg init opsDone st st₂ v hinv hstep
      have hr := hrw st₂ false hstep
      rw [if_neg (by simp)] at hr
      have hassoc : opsDone ++ visitOps cfg (v :: vs) =
          (opsDone ++ visitOp cfg v) ++ visitOps cfg vs := by
        rw [visitOps_cons, List.append_assoc]
      constructor
      · intro st' h
        rw [hr] at h
        rw [hassoc]
        exact (ih (opsDone ++ visitOp cfg v) st₂ hinv₂).1 st' h
      · intro st' h
        rw [hr] at h
        rw [hassoc]
        exact (ih (opsDone ++ visitOp cfg v) st₂ hinv₂).2 st' h
    | true =>
      have hr := hrw st₂ true hstep
      rw [if_pos rfl] at hr
      constructor
      · intro st' h
        rw [hr] at h
        exact absurd (congrArg Prod.snd h) (by simp)
      · intro st' h
        rw [hr] at h
        have hst : st₂ = st' := congrArg Prod.fst h
        subst hst
        obtain ⟨hcf, hef⟩ := stepVisit_fail_frame cfg st st₂ v hstep
        obtain ⟨hc, hp, hb, hblt, hlen⟩ := hinv
        have hle : 1000 * st.events.length ≤ opsDone.length := by omega
        have hle2 : 1000 * st.events.length ≤ (opsDone ++ visitOp cfg v).length := by
          rw [List.length_append]; omega
        rw [hcf, hef, visitOps_cons, ← List.append_assoc,
          List.take_append_of_le_length hle2,
          List.take_append_of_le_length hle]
        exact hc

theorem runVisits_noFail (cfg : Cfg) (hnf : ∀ i, cfg.failOn i = false) (vs : List Visit) :
    ∀ st, (runVisits cfg st vs).2 = false := by
  induction vs with
  | nil => intro st; rfl
  | cons v vs ih =>
    intro st
    have hstep : stepVisit cfg st v = ((stepVisit cfg st v).1, false) := by
      have := stepVisit_noFail cfg hnf st v
      exact Prod.ext rfl this
    show (runVisits cfg st (v :: vs)).2 = false
    rw [runVisits, hstep]
    exact ih _

theorem runVisits_counters (cfg : Cfg) (hnf : ∀ i, cfg.failOn i = false) (vs : List Visit) :
    ∀ st, (runVisits cfg st vs).1.files = st.files + vs.countP (isCountedFile cfg) ∧
      (runVisits cfg st vs).1.dirs = st.dirs + vs.countP isCountedDir := by
  induction vs with
  | nil => intro st; simp [runVisits]
  | cons v vs ih =>
    intro st
    have hstep : stepVisit cfg st v = ((stepVisit cfg st v).1, false) := by
      have := stepVisit_noFail cfg hnf st v
      exact Prod.ext rfl this
    obtain ⟨hf, hd⟩ := stepVisit_counters cfg st (stepVisit cfg st v).1 v false hstep
    show (runVisits cfg st (v :: vs)).1.files = _ ∧ (runVisits cfg st (v :: vs)).1.dirs = _
    rw [runVisits, hstep]
    obtain ⟨ihf, ihd⟩ := ih (stepVisit cfg st v).1
    constructor
    · rw [ihf, hf, List.countP_cons]
      omega
    · rw [ihd, hd, List.countP_cons]
      omega

/-! ## Top-level run characterizations -/

theorem scan_err_db (cfg : Cfg) (init : DB) (root : GoPath) (tree : FsNode) (e : Nat)
    (h : (scanAndPersist cfg init root tree).err = some e) :
    (scanAndPersist cfg init root tree).db =
      applyOps init ((visitOps cfg (nodeVisits root tree)).take
        (1000 * (scanAndPersist cfg init root tree).events.length)) := by
  have hbase := runVisits_DbInv cfg init (nodeVisits root tree) [] (initState init)
    (DbInv_init init)
  unfold scanAndPersist at h ⊢
  obtain ⟨st, f, hrun⟩ : ∃ st f, runVisits cfg (initState init) (nodeVisits root tree) = (st, f) :=
    ⟨_, _, rfl⟩
  simp only [hrun] at h ⊢
  cases f with
  | true =>
    simp only [if_true] at h ⊢
    simpa using hbase.2 st hrun
  | false =>
    by_cases hfo : cfg.failOn st.opIdx
    · simp only [hfo, if_true, if_false, Bool.false_eq_true] at h ⊢
      obtain ⟨hc, hp, hb, hblt, hlen⟩ := hbase.1 st hrun
      simpa using hc
    · simp only [hfo, if_false, Bool.false_eq_true] at h
      exact absurd h (by simp)

theorem scan_ok_spec (cfg : Cfg) (init : DB) (root : GoPath) (tree : FsNode)
    (hnf : ∀ i, cfg.failOn i = false) :
    (scanAndPersist cfg init root tree).err = none ∧
    (scanAndPersist cfg init root tree).db = applyOps init (visitOps cfg (nodeVisits root tree)) := by
  have hbase := runVisits_DbInv cfg init (nodeVisits root tree) [] (initState init)
    (DbInv_init init)
  unfold scanAndPersist
  obtain ⟨st, f, hrun⟩ : ∃ st f, runVisits cfg (initState init) (nodeVisits root tree) = (st, f) :=
    ⟨_, _, rfl⟩
  simp only [hrun]
  cases f with
  | true =>
    have := runVisits_noFail cfg hnf (nodeVisits root tree) (initState init)
    rw [hrun] at this
    exact absurd this (by simp)
  | false =>
    simp only [hnf, if_false, Bool.false_eq_true]
    refine ⟨trivial, ?_⟩
    obtain ⟨hc, hp, hb, hblt, hlen⟩ := hbase.1 st hrun
    show applyOps st.committed st.pending = _
    rw [hc, hp]
    unfold applyOps
    rw [← List.foldl_append, List.take_append_drop]
    simp

theorem scan_files_eq_run (cfg : Cfg) (init : DB) (root : GoPath) (tree : FsNode) :
    (scanAndPersist cfg init root tree).files =
      (runVisits cfg (initState init) (nodeVisits root tree)).1.files := by
  unfold scanAndPersist
  obtain ⟨st, f, hrun⟩ : ∃ st f, runVisits cfg (initState init) (nodeVisits root tree) = (st, f) :=
    ⟨_, _, rfl⟩
  simp only [hrun]
  cases f with
  | true => rfl
  | false =>
    by_cases hfo : cfg.failOn st.opIdx
    · simp [hfo]
    · simp [hfo]

/-! ## C6: estimator/engine agreement -/

/-- C6 counterexample: a tree containing a file whose stat (`d.Info()`)
fails. The estimator, which never stats entries, counts it; the engine skips
it, so the final cumulative file count differs from the estimator's total
even though the tree is unchanged and the filter is held constant. -/
theorem c6_estimator_counterexample :
    estimateFileCount cfg0.filter ⟨true, ["r"]⟩ treeStatErr = 1 ∧
    (scanAndPersist cfg0 emptyDB ⟨true, ["r"]⟩ treeStatErr).files = 0 ∧
    (scanAndPersist cfg0 emptyDB ⟨true, ["r"]⟩ treeStatErr).files ≠
      estimateFileCount cfg0.filter ⟨true, ["r"]⟩ treeStatErr := by
  refine ⟨by decide, by decide, by decide⟩

/-- C6 amended: with the filter held constant and the tree unchanged between
the two passes, and provided every file entry delivered by the walk can be
stat'ed (`d.Info()` succeeds), the engine's final cumulative file count
equals the estimator's total; a stat failure makes the engine skip a file the
estimator counted. -/
theorem c6_estimator_engine_amended (cfg : Cfg) (init : DB) (root : GoPath) (tree : FsNode)
    (hnf : ∀ i, cfg.failOn i = false)
    (hstat : ∀ p m ro, Visit.fileVisit p m ro ∈ nodeVisits root tree → m.isSome = true) :
    (scanAndPersist cfg init root tree).files = estimateFileCount cfg.filter root tree := by
  rw [scan_files_eq_run]
  have := (runVisits_counters cfg hnf (nodeVisits root tree) (initState init)).1
  rw [this]
  show 0 + _ = _
  rw [Nat.zero_add]
  apply List.countP_congr
  intro v hv
  cases v with
  | dirVisit p meta => simp [isCountedFile, isEstimated]
  | fileVisit p meta ro =>
    cases meta with
    | none => exact absurd (hstat p none ro hv) (by simp)
    | some m => simp [isCountedFile, isEstimated]

/-- C6 amended witness on a clean two-level tree. -/
theorem c6_estimator_engine_amended_witness :
    (scanAndPersist cfg0 emptyDB ⟨true, ["r"]⟩ tree0).files =
      estimateFileCount cfg0.filter ⟨true, ["r"]⟩ tree0 :=
  c6_estimator_engine_amended cfg0 emptyDB ⟨true, ["r"]⟩ tree0 (fun _ => rfl)
    (by
      intro p m ro h
      have hall : ∀ v ∈ nodeVisits (⟨true, ["r"]⟩ : GoPath) tree0,
          (match v with
           | Visit.fileVisit _ m' _ => m'.isSome
           | Visit.dirVisit _ _ => true) = true := by decide
      exact hall _ h)

/-! ## C7: batch-commit error atomicity -/

/-- C7: when a storage write fails during the walk, the durable store is
exactly the initial store with the full committed batches applied (one
thousand-operation batch per emitted progress event; the open transaction is
rolled back), and the message stream ends with exactly one terminal done
message carrying that error. -/
theorem c7_batch_error_atomicity (cfg : Cfg) (init : DB) (root : GoPath) (tree : FsNode)
    (e : Nat) (h : (scanAndPersist cfg init root tree).err = some e) :
    (scanAndPersist cfg init root tree).db =
      applyOps init ((visitOps cfg (nodeVisits root tree)).take
        (1000 * (scanAndPersist cfg init root tree).events.length)) ∧
    (scanMsgs cfg init root tree).countP Msg.isDone = 1 ∧
    (scanMsgs cfg init root tree).getLast? = some (.done (some e)) := by
  refine ⟨scan_err_db cfg init root tree e h, ?_, ?_⟩
  · unfold scanMsgs
    rw [List.countP_append, List.countP_map]
    have h1 : (scanAndPersist cfg init root tree).events.countP (Msg.isDone ∘ Msg.progress) = 0 := by
      apply List.countP_eq_zero.mpr
      intro a ha
      simp [Msg.isDone, Function.comp]
    rw [h1]
    simp [Msg.isDone]
  · unfold scanMsgs
    rw [List.getLast?_concat, h]

/-- C7 witness: a run whose very first write fails reports the failure in the
single done message and leaves the (empty) committed store. -/
theorem c7_batch_error_atomicity_witness :
    (scanAndPersist cfgFail0 emptyDB ⟨true, ["r"]⟩ tree0).err = some 0 ∧
    (scanAndPersist cfgFail0 emptyDB ⟨true, ["r"]⟩ tree0).db =
      applyOps emptyDB ((visitOps cfgFail0 (nodeVisits ⟨true, ["r"]⟩ tree0)).take
        (1000 * (scanAndPersist cfgFail0 emptyDB ⟨true, ["r"]⟩ tree0).events.length)) :=
  ⟨by decide,
   (c7_batch_error_atomicity cfgFail0 emptyDB ⟨true, ["r"]⟩ tree0 0 (by decide)).1⟩

/-! ## Path rendering facts -/

theorem toList_eq_nil_iff (s : String) : s.toList = [] ↔ s = "" := by
  cases s with
  | mk data =>
    constructor
    · intro h
      show String.mk data = ""
      rw [show data = ([] : List Char) from h]
    · intro h
      rw [h]
      rfl

theorem joinSlash_cons_ne_nil (c : String) (cs : List String) (hc : c ≠ "") :
    joinSlash (c :: cs) ≠ [] := by
  cases cs with
  | nil =>
    show c.toList ≠ []
    intro h
    exact hc ((toList_eq_nil_iff c).mp h)
  | cons c' cs' =>
    show c.toList ++ '/' :: joinSlash (c' :: cs') ≠ []
    simp

theorem render_ne_empty (p : GoPath) (hw : WFPath p = true) : p.render ≠ "" := by
  unfold GoPath.render
  split_ifs with h1 h2
  · intro he
    have h3 : ('/' :: joinSlash p.comps : List Char) = ("" : String).toList :=
      congrArg String.toList he
    simp at h3
  · intro he
    exact absurd he (by decide)
  · cases hcs : p.comps with
    | nil => exact absurd hcs h2
    | cons c cs =>
      intro he
      have hcw : wfComp c = true := by
        have := hw
        unfold WFPath at this
        rw [hcs] at this
        simp [List.all_cons] at this
        simpa [wfComp] using this.1
      have hcne : c ≠ "" := by
        simp [wfComp] at hcw
        exact hcw.1.1
      have h3 : joinSlash (c :: cs) = ("" : String).toList :=
        congrArg String.toList he
      exact joinSlash_cons_ne_nil c cs hcne (by simpa using h3)

theorem WFPath_child (p : GoPath) (n : String) (hp : WFPath p = true) (hn : wfComp n = true) :
    WFPath (p.child n) = true := by
  unfold WFPath GoPath.child at *
  simp only [List.all_append, List.all_cons, List.all_nil]
  simp [hp, hn]

mutual
theorem nodeVisits_wfPaths (p : GoPath) (n : FsNode)
    (hp : WFPath p = true) (hn : n.wfNames = true) :
    ∀ v ∈ nodeVisits p n, WFPath v.path = true := by
  cases n with
  | file name meta ro =>
    intro v hv
    have : v = .fileVisit p meta ro := by simpa [nodeVisits] using hv
    subst this
    exact hp
  | dir name meta readErr entries =>
    intro v hv
    unfold nodeVisits at hv
    rcases List.mem_cons.mp hv with rfl | hv'
    · exact hp
    · by_cases hre : readErr
      · rw [if_pos hre] at hv'
        exact absurd hv' (List.not_mem_nil v)
      · rw [if_neg hre] at hv'
        have hen : entries.wfNames = true := by
          unfold FsNode.wfNames at hn
          simp at hn
          exact hn.2
        exact forestVisits_wfPaths p entries hp hen v hv'

theorem forestVisits_wfPaths (p : GoPath) (f : FsForest)
    (hp : WFPath p = true) (hf : f.wfNames = true) :
    ∀ v ∈ forestVisits p f, WFPath v.path = true := by
  cases f with
  | nil =>
    intro v hv
    exact absurd hv (List.not_mem_nil v)
  | cons n rest =>
    intro v hv
    unfold forestVisits at hv
    have hsplit : n.wfNames = true ∧ rest.wfNames = true := by
      unfold FsForest.wfNames at hf
      simpa using hf
    rcases List.mem_append.mp hv with hv' | hv'
    · have hnn : wfComp n.name = true := by
        cases n with
        | file nm meta ro =>
          unfold FsNode.wfNames at hsplit
          exact hsplit.1
        | dir nm meta re entries =>
          have := hsplit.1
          unfold FsNode.wfNames at this
          simp at this
          simpa [FsNode.name, wfComp] using this.1
      exact nodeVisits_wfPaths (p.child n.name) n (WFPath_child p n.name hp hnn) hsplit.1 v hv'
    · exact forestVisits_wfPaths p rest hp hsplit.2 v hv'
end

/-! ## Event-content invariant (used by C10) -/

theorem execOp_EvInv (cfg : Cfg) (stb st' : EngState) (op : Op) (p : GoPath)
    (hwp : WFPath p = true) (h : execOp cfg stb op p = (st', false))
    (hidx : ∀ i (hi : i < stb.events.length),
      (stb.events.get ⟨i, hi⟩).files + (stb.events.get ⟨i, hi⟩).folders = 1000 * (i + 1) ∧
      (stb.events.get ⟨i, hi⟩).estimatedTotal = cfg.est ∧
      (stb.events.get ⟨i, hi⟩).lastPath ≠ "")
    (hsum : stb.files + stb.dirs = 1000 * stb.events.length + stb.batch + 1)
    (hblt : stb.batch < 1000) : EvInv cfg st' := by
  rcases execOp_false_spec _ _ _ _ _ h with ⟨hlt, rfl⟩ | ⟨hge, rfl⟩
  · have hlt' : stb.batch + 1 < 1000 := hlt
    exact ⟨hidx, hsum, hlt'⟩
  · have hge' : stb.batch + 1 ≥ 1000 := hge
    have hbe : stb.batch + 1 = 1000 := by omega
    set e : ProgressEvent := ⟨stb.files, stb.dirs, p.render, cfg.est⟩ with he
    refine ⟨?_, ?_, by show (0 : Nat) < 1000; omega⟩
    · intro i hi
      have hi' : i < stb.events.length + 1 := by simpa using hi
      by_cases hilt : i < stb.events.length
      · have hget : (stb.events ++ [e]).get ⟨i, hi⟩ = stb.events.get ⟨i, hilt⟩ := by
          rw [List.get_eq_getElem, List.get_eq_getElem]
          exact List.getElem_append_left hilt
        rw [hget]
        exact hidx i hilt
      · have hieq : i = stb.events.length := by omega
        have hget : (stb.events ++ [e]).get ⟨i, hi⟩ = e := by
          rw [List.get_eq_getElem]
          exact List.getElem_concat_length stb.events e i hieq _
        rw [hget]
        refine ⟨?_, rfl, render_ne_empty p hwp⟩
        show stb.files + stb.dirs = 1000 * (i + 1)
        omega
    · show stb.files + stb.dirs = 1000 * (stb.events ++ [e]).length + 0
      rw [List.length_append]
      simp only [List.length_cons, List.length_nil]
      omega

theorem stepVisit_EvInv (cfg : Cfg) (st st' : EngState) (v : Visit)
    (hw : WFPath v.path = true) (h : stepVisit cfg st v = (st', false))
    (hinv : EvInv cfg st) : EvInv cfg st' := by
  obtain ⟨hidx, hsum, hblt⟩ := hinv
  cases v with
  | dirVisit p meta =>
    cases meta with
    | none =>
      have hst : st' = st := (congrArg Prod.fst h).symm
      subst hst
      exact ⟨hidx, hsum, hblt⟩
    | some m =>
      have h' : execOp cfg { st with dirs := st.dirs + 1 }
          (.folderUp p.render ⟨parentOf p, m.mtime⟩) p = (st', false) := h
      refine execOp_EvInv cfg { st with dirs := st.dirs + 1 } st' _ p hw h' hidx ?_ hblt
      show st.files + (st.dirs + 1) = 1000 * st.events.length + st.batch + 1
      omega
  | fileVisit p meta ro =>
    cases meta with
    | none =>
      have hst : st' = st := (congrArg Prod.fst h).symm
      subst hst
      exact ⟨hidx, hsum, hblt⟩
    | some m =>
      by_cases hf : passesFilter cfg.filter p
      · have h' : execOp cfg { st with files := st.files + 1 }
            (.fileUp p.render (mkRow cfg p m ro)) p = (st', false) := by
          simpa [stepVisit, hf] using h
        refine execOp_EvInv cfg { st with files := st.files + 1 } st' _ p hw h' hidx ?_ hblt
        show (st.files + 1) + st.dirs = 1000 * st.events.length + st.batch + 1
        omega
      · have hstep : stepVisit cfg st (.fileVisit p (some m) ro) = (st, false) := by
          simp [stepVisit, hf]
        rw [hstep] at h
        have hst : st' = st := (congrArg Prod.fst h).symm
        subst hst
        exact ⟨hidx, hsum, hblt⟩

theorem runVisits_EvInv (cfg : Cfg) (hnf : ∀ i, cfg.failOn i = false) (vs : List Visit)
    (hwAll : ∀ v ∈ vs, WFPath v.path = true) :
    ∀ st, EvInv cfg st → EvInv cfg (runVisits cfg st vs).1 := by
  induction vs with
  | nil => intro st hinv; exact hinv
  | cons v vs ih =>
    intro st hinv
    have hstep : stepVisit cfg st v = ((stepVisit cfg st v).1, false) := by
      have := stepVisit_noFail cfg hnf st v
      exact Prod.ext rfl this
    have hinv₂ := stepVisit_EvInv cfg st (stepVisit cfg st v).1 v
      (hwAll v (List.mem_cons_self v vs)) hstep hinv
    show EvInv cfg (runVisits cfg st (v :: vs)).1
    rw [runVisits, hstep]
    exact ih (fun v' hv' => hwAll v' (List.mem_cons_of_mem v hv')) _ hinv₂

theorem EvInv_init (cfg : Cfg) (init : DB) : EvInv cfg (initState init) := by
  refine ⟨?_, rfl, by norm_num [initState]⟩
  intro i hi
  exact absurd hi (by simp [initState])

/-! ## C4: batching rule -/

/-- C4: one engine step either performs no upsert and leaves the state
untouched, or performs exactly one upsert (folders and files counted by the
same batch counter); on the thousandth accumulated upsert — and only then —
the open transaction commits, one progress event fires carrying the
cumulative file count, the cumulative folder count, the current path, and the
estimator total, and a fresh (empty) transaction is open before the next
upsert. -/
theorem c4_batching (cfg : Cfg) (st st' : EngState) (v : Visit)
    (h : stepVisit cfg st v = (st', false)) :
    (st'.files + st'.dirs = st.files + st.dirs → st' = st) ∧
    (st'.files + st'.dirs = st.files + st.dirs + 1 →
      (st.batch + 1 < 1000 →
        st'.committed = st.committed ∧ st'.events = st.events ∧
        st'.batch = st.batch + 1 ∧ st'.pending = st.pending ++ visitOp cfg v) ∧
      (st.batch + 1 = 1000 →
        st'.committed = applyOps st.committed (st.pending ++ visitOp cfg v) ∧
        st'.events = st.events ++ [⟨st'.files, st'.dirs, v.path.render, cfg.est⟩] ∧
        st'.pending = [] ∧ st'.batch = 0)) := by
  cases v with
  | dirVisit p meta =>
    cases meta with
    | none =>
      have hst : st' = st := (congrArg Prod.fst h).symm
      subst hst
      exact ⟨fun _ => rfl, fun hcnt => absurd hcnt (by omega)⟩
    | some m =>
      have h' : execOp cfg { st with dirs := st.dirs + 1 }
          (.folderUp p.render ⟨parentOf p, m.mtime⟩) p = (st', false) := h
      rcases execOp_false_spec _ _ _ _ _ h' with ⟨hlt, rfl⟩ | ⟨hge, rfl⟩
      · have hlt' : st.batch + 1 < 1000 := hlt
        refine ⟨?_, fun _ => ⟨fun _ => ⟨rfl, rfl, rfl, rfl⟩, fun hb => absurd hb (by omega)⟩⟩
        intro hcnt
        have h2 : st.files + (st.dirs + 1) = st.files + st.dirs := hcnt
        exact absurd h2 (by omega)
      · have hge' : st.batch + 1 ≥ 1000 := hge
        refine ⟨?_, fun _ => ⟨fun hb => absurd hb (by omega), fun _ => ⟨rfl, rfl, rfl, rfl⟩⟩⟩
        intro hcnt
        have h2 : st.files + (st.dirs + 1) = st.files + st.dirs := hcnt
        exact absurd h2 (by omega)
  | fileVisit p meta ro =>
    cases meta with
    | none =>
      have hst : st' = st := (congrArg Prod.fst h).symm
      subst hst
      exact ⟨fun _ => rfl, fun hcnt => absurd hcnt (by omega)⟩
    | some m =>
      by_cases hf : passesFilter cfg.filter p
      · have h' : execOp cfg { st with files := st.files + 1 }
            (.fileUp p.render (mkRow cfg p m ro)) p = (st', false) := by
          simpa [stepVisit, hf] using h
        have hop : visitOp cfg (.fileVisit p (some m) ro) = [.fileUp p.render (mkRow cfg p m ro)] := by
          simp [visitOp, hf]
        rw [hop]
        rcases execOp_false_spec _ _ _ _ _ h' with ⟨hlt, rfl⟩ | ⟨hge, rfl⟩
        · have hlt' : st.batch + 1 < 1000 := hlt
          refine ⟨?_, fun _ => ⟨fun _ => ⟨rfl, rfl, rfl, rfl⟩, fun hb => absurd hb (by omega)⟩⟩
          intro hcnt
          have h2 : (st.files + 1) + st.dirs = st.files + st.dirs := hcnt
          exact absurd h2 (by omega)
        · have hge' : st.batch + 1 ≥ 1000 := hge
          refine ⟨?_, fun _ => ⟨fun hb => absurd hb (by omega), fun _ => ⟨rfl, rfl, rfl, rfl⟩⟩⟩
          intro hcnt
          have h2 : (st.files + 1) + st.dirs = st.files + st.dirs := hcnt
          exact absurd h2 (by omega)
      · have hstep : stepVisit cfg st (.fileVisit p (some m) ro) = (st, false) := by
          simp [stepVisit, hf]
        rw [hstep] at h
        have hst : st' = st := (congrArg Prod.fst h).symm
        subst hst
        exact ⟨fun _ => rfl, fun hcnt => absurd hcnt (by omega)⟩

/-- C4 witness: the first directory upsert of a fresh run lands in the open
transaction without committing. -/
theorem c4_batching_witness :
    stepVisit cfg0 (initState emptyDB) (Visit.dirVisit ⟨true, []⟩ (some ⟨"t"⟩)) = (stW4, false) ∧
    (stW4.committed = (initState emptyDB).committed ∧
     stW4.events = (initState emptyDB).events ∧
     stW4.batch = (initState emptyDB).batch + 1 ∧
     stW4.pending = (initState emptyDB).pending ++
       visitOp cfg0 (Visit.dirVisit ⟨true, []⟩ (some ⟨"t"⟩))) :=
  ⟨by decide,
   ((c4_batching cfg0 (initState emptyDB) stW4 (Visit.dirVisit ⟨true, []⟩ (some ⟨"t"⟩))
      (by decide)).2 (by decide)).1 (by decide)⟩

/-! ## C10: progress-emission bound -/

/-- C10: in a successful run over well-formed paths, every intermediate
progress event (all events but the last) carries a nonempty path and was
emitted exactly when the cumulative upsert count (files plus folders) reached
the positive multiple `1000 * (i + 1)`; the final event carries the empty
path sentinel and the final counters; and a run with fewer than 1000 upserts
emits exactly the single final event. -/
theorem c10_progress_bound (cfg : Cfg) (init : DB) (root : GoPath) (tree : FsNode)
    (hnf : ∀ i, cfg.failOn i = false) (hwr : WFPath root = true) (hwt : tree.wfNames = true) :
    (∀ i e, ((scanAndPersist cfg init root tree).events.dropLast)[i]? = some e →
       e.lastPath ≠ "" ∧ e.files + e.folders = 1000 * (i + 1)) ∧
    (scanAndPersist cfg init root tree).events.getLast? =
      some ⟨(scanAndPersist cfg init root tree).files,
            (scanAndPersist cfg init root tree).dirs, "", cfg.est⟩ ∧
    ((scanAndPersist cfg init root tree).files + (scanAndPersist cfg init root tree).dirs < 1000 →
      (scanAndPersist cfg init root tree).events =
        [⟨(scanAndPersist cfg init root tree).files,
          (scanAndPersist cfg init root tree).dirs, "", cfg.est⟩]) := by
  have hwv : ∀ v ∈ nodeVisits root tree, WFPath v.path = true :=
    nodeVisits_wfPaths root tree hwr hwt
  have hEv := runVisits_EvInv cfg hnf (nodeVisits root tree) hwv (initState init)
    (EvInv_init cfg init)
  unfold scanAndPersist
  obtain ⟨st, f, hrun⟩ : ∃ st f, runVisits cfg (initState init) (nodeVisits root tree) = (st, f) :=
    ⟨_, _, rfl⟩
  rw [hrun] at hEv
  simp only [hrun]
  cases f with
  | true =>
    have := runVisits_noFail cfg hnf (nodeVisits root tree) (initState init)
    rw [hrun] at this
    exact absurd this (by simp)
  | false =>
    simp only [hnf, if_false, Bool.false_eq_true]
    obtain ⟨hidx0, hsum0, hblt0⟩ := hEv
    have hidx : ∀ i (hi : i < st.events.length),
        (st.events.get ⟨i, hi⟩).files + (st.events.get ⟨i, hi⟩).folders = 1000 * (i + 1) ∧
        (st.events.get ⟨i, hi⟩).estimatedTotal = cfg.est ∧
        (st.events.get ⟨i, hi⟩).lastPath ≠ "" := hidx0
    have hsum : st.files + st.dirs = 1000 * st.events.length + st.batch := hsum0
    have hblt : st.batch < 1000 := hblt0
    refine ⟨?_, ?_, ?_⟩
    · show ∀ i e,
        ((st.events ++ [(⟨st.files, st.dirs, "", cfg.est⟩ : ProgressEvent)]).dropLast)[i]? = some e →
          e.lastPath ≠ "" ∧ e.files + e.folders = 1000 * (i + 1)
      rw [List.dropLast_concat]
      intro i e hq
      obtain ⟨hi, hget⟩ := List.getElem?_eq_some_iff.mp hq
      have hfin := hidx i hi
      rw [List.get_eq_getElem] at hfin
      rw [hget] at hfin
      exact ⟨hfin.2.2, hfin.1⟩
    · show (st.events ++ [(⟨st.files, st.dirs, "", cfg.est⟩ : ProgressEvent)]).getLast? = _
      rw [List.getLast?_concat]
    · intro hlt
      have hlt' : st.files + st.dirs < 1000 := hlt
      have hzero : st.events.length = 0 := by omega
      have hev0 : st.events = [] := List.length_eq_zero.mp hzero
      show st.events ++ [(⟨st.files, st.dirs, "", cfg.est⟩ : ProgressEvent)] = _
      rw [hev0]
      rfl

/-! ## C3: folder parent-path rule -/

/-- C3 counterexample: crawling from the root `/a` (which is not the
filesystem root) records `/` as the root directory's parent, not the empty
string the claim requires for every choice of root. -/
theorem c3_parent_counterexample :
    lookupFolder (scanAndPersist cfg0 emptyDB ⟨true, ["a"]⟩ treeLone).db "/a" =
      some ⟨"/", "tr"⟩ ∧ ("/" : String) ≠ "" := by
  constructor <;> decide

/-- C3 amended: every folder record upserted during a crawl carries
`parent_path` derived from the directory's path (`filepath.Dir`, replaced by
the empty string exactly when `Dir(p) = p`); for well-formed paths the
recorded parent is the empty string exactly when the path is a filesystem
root (`/` or `.`) — so the crawl root's parent is empty only when the root
itself is a filesystem root, not for every choice of root. -/
theorem c3_parent_amended (cfg : Cfg) (root : GoPath) (tree : FsNode) :
    (∀ k row, Op.folderUp k row ∈ visitOps cfg (nodeVisits root tree) →
       ∃ p m, Visit.dirVisit p (some m) ∈ nodeVisits root tree ∧
         k = p.render ∧ row.parent = parentOf p ∧ row.mtime = m.mtime) ∧
    (∀ p : GoPath, WFPath p = true → (parentOf p = "" ↔ p.comps = [])) := by
  constructor
  · intro k row hmem
    unfold visitOps at hmem
    obtain ⟨v, hv, hop⟩ := List.mem_flatMap.mp hmem
    cases v with
    | dirVisit p meta =>
      cases meta with
      | none => exact absurd hop (by simp [visitOp])
      | some m =>
        have hop' : Op.folderUp k row = Op.folderUp p.render ⟨parentOf p, m.mtime⟩ := by
          simpa [visitOp] using hop
        injection hop' with h1 h2
        exact ⟨p, m, hv, h1, congrArg FolderRow.parent h2, congrArg FolderRow.mtime h2⟩
    | fileVisit p meta ro =>
      cases meta with
      | none => exact absurd hop (by simp [visitOp])
      | some m =>
        by_cases hf : passesFilter cfg.filter p
        · exact absurd hop (by simp [visitOp, hf])
        · exact absurd hop (by simp [visitOp, hf])
  · intro p hw
    constructor
    · intro he
      by_cases hc : p.comps = []
      · exact hc
      · exfalso
        have hne : goDir p ≠ p := by
          intro heq
          have hdl : p.comps.dropLast = p.comps := congrArg GoPath.comps heq
          have hlen := congrArg List.length hdl
          rw [List.length_dropLast] at hlen
          have hnz : p.comps.length ≠ 0 := fun h0 => hc (List.length_eq_zero.mp h0)
          omega
        rw [parentOf, if_neg hne] at he
        have hwd : WFPath (goDir p) = true := by
          unfold WFPath goDir at *
          simp only [List.all_eq_true] at hw ⊢
          intro c hcmem
          exact hw c (List.dropLast_subset _ hcmem)
        exact render_ne_empty (goDir p) hwd he
    · intro hc
      obtain ⟨ab, comps⟩ := p
      simp only at hc
      subst hc
      unfold parentOf
      rw [if_pos (show goDir ⟨ab, []⟩ = ⟨ab, []⟩ from rfl)]

/-- C3 amended witness: on a concrete crawl the only folder op recorded for
the root `/a` carries parent `/`, i.e. `parentOf` of the root, and
`parentOf` is empty exactly on filesystem roots. -/
theorem c3_parent_amended_witness :
    (parentOf ⟨true, ["a"]⟩ = "" ↔ ([("a" : String)] : List String) = []) ∧
    (parentOf ⟨true, []⟩ = "" ↔ ([] : List String) = []) :=
  ⟨(c3_parent_amended cfg0 ⟨true, ["a"]⟩ treeLone).2 ⟨true, ["a"]⟩ (by decide),
   (c3_parent_amended cfg0 ⟨true, []⟩ treeLone).2 ⟨true, []⟩ (by decide)⟩

/-! ## Rendering is injective on well-formed paths -/

theorem toList_inj (s t : String) (h : s.toList = t.toList) : s = t := by
  cases s
  cases t
  exact congrArg String.mk h

theorem wf_no_slash (c : String) (h : wfComp c = true) : '/' ∉ c.toList := by
  simp [wfComp] at h
  exact h.2

theorem wf_ne_empty (c : String) (h : wfComp c = true) : c ≠ "" := by
  simp [wfComp] at h
  exact h.1.1

theorem wf_ne_dot (c : String) (h : wfComp c = true) : c ≠ "." := by
  simp [wfComp] at h
  exact h.1.2

theorem noslash_split (a : List Char) :
    ∀ (b as bs : List Char), '/' ∉ a → '/' ∉ b →
      a ++ '/' :: as = b ++ '/' :: bs → a = b ∧ as = bs := by
  induction a with
  | nil =>
    intro b as bs _ hb h
    cases b with
    | nil => simpa using h
    | cons c b' =>
      rw [List.nil_append, List.cons_append] at h
      have hc : '/' = c := (List.cons_eq_cons.mp h).1
      exact absurd (hc ▸ List.mem_cons_self c b') hb
  | cons c a' ih =>
    intro b as bs ha hb h
    cases b with
    | nil =>
      rw [List.nil_append, List.cons_append] at h
      have hc : c = '/' := (List.cons_eq_cons.mp h).1
      exact absurd (hc ▸ List.mem_cons_self c a') ha
    | cons c' b' =>
      rw [List.cons_append, List.cons_append] at h
      obtain ⟨hc, hrest⟩ := List.cons_eq_cons.mp h
      have ha' : '/' ∉ a' := fun hm => ha (List.mem_cons_of_mem c hm)
      have hb' : '/' ∉ b' := fun hm => hb (List.mem_cons_of_mem c' hm)
      obtain ⟨h1, h2⟩ := ih b' as bs ha' hb' hrest
      exact ⟨by rw [hc, h1], h2⟩

theorem joinSlash_cons_shape (c : String) (cs : List String) :
    joinSlash (c :: cs) = c.toList ∨
    ∃ t, joinSlash (c :: cs) = c.toList ++ '/' :: t := by
  cases cs with
  | nil => exact Or.inl rfl
  | cons c' cs' => exact Or.inr ⟨joinSlash (c' :: cs'), rfl⟩

theorem joinSlash_inj (xs : List String) :
    ∀ ys, (∀ c ∈ xs, wfComp c = true) → (∀ c ∈ ys, wfComp c = true) →
      joinSlash xs = joinSlash ys → xs = ys := by
  induction xs with
  | nil =>
    intro ys _ hy h
    cases ys with
    | nil => rfl
    | cons y ys' =>
      have hyne : y ≠ "" := wf_ne_empty y (hy y (List.mem_cons_self y ys'))
      exact absurd h.symm (joinSlash_cons_ne_nil y ys' hyne)
  | cons x xs' ih =>
    intro ys hx hy h
    cases ys with
    | nil =>
      have hxne : x ≠ "" := wf_ne_empty x (hx x (List.mem_cons_self x xs'))
      exact absurd h (joinSlash_cons_ne_nil x xs' hxne)
    | cons y ys' =>
      have hxw := hx x (List.mem_cons_self x xs')
      have hyw := hy y (List.mem_cons_self y ys')
      cases xs' with
      | nil =>
        cases ys' with
        | nil =>
          have : x = y := toList_inj x y h
          rw [this]
        | cons y' ys'' =>
          have h' : x.toList = y.toList ++ '/' :: joinSlash (y' :: ys'') := h
          have hmem : '/' ∈ x.toList := by
            rw [h']
            simp
          exact absurd hmem (wf_no_slash x hxw)
      | cons x' xs'' =>
        cases ys' with
        | nil =>
          have h' : x.toList ++ '/' :: joinSlash (x' :: xs'') = y.toList := h
          have hmem : '/' ∈ y.toList := by
            rw [← h']
            simp
          exact absurd hmem (wf_no_slash y hyw)
        | cons y' ys'' =>
          have h' : x.toList ++ '/' :: joinSlash (x' :: xs'') =
              y.toList ++ '/' :: joinSlash (y' :: ys'') := h
          obtain ⟨h1, h2⟩ := noslash_split x.toList y.toList _ _
            (wf_no_slash x hxw) (wf_no_slash y hyw) h'
          have hxy : x = y := toList_inj x y h1
          have hrest : (x' :: xs'') = (y' :: ys'') :=
            ih (y' :: ys'') (fun c hc => hx c (List.mem_cons_of_mem x hc))
              (fun c hc => hy c (List.mem_cons_of_mem y hc)) h2
          rw [hxy, hrest]

theorem render_abs_ne_rel (pc qc : List String) (hq : ∀ c ∈ qc, wfComp c = true)
    (h : ('/' :: joinSlash pc : List Char) = (GoPath.render ⟨false, qc⟩).toList) : False := by
  cases qc with
  | nil =>
    have h' : ('/' :: joinSlash pc : List Char) = ['.'] := h
    have : '/' = '.' := (List.cons_eq_cons.mp h').1
    exact absurd this (by decide)
  | cons c cs =>
    have hcw := hq c (List.mem_cons_self c cs)
    have h' : ('/' :: joinSlash pc : List Char) = joinSlash (c :: cs) := h
    obtain ⟨ch, rest, hct⟩ : ∃ ch rest, c.toList = ch :: rest := by
      cases hc : c.toList with
      | nil => exact absurd ((toList_eq_nil_iff c).mp hc) (wf_ne_empty c hcw)
      | cons ch rest => exact ⟨ch, rest, rfl⟩
    have hch : ch ≠ '/' := by
      intro hcc
      exact wf_no_slash c hcw (by rw [hct, hcc]; exact List.mem_cons_self _ _)
    rcases joinSlash_cons_shape c cs with hs | ⟨t, hs⟩
    · rw [hs, hct] at h'
      exact hch ((List.cons_eq_cons.mp h').1.symm)
    · rw [hs, hct, List.cons_append] at h'
      exact hch ((List.cons_eq_cons.mp h').1.symm)

theorem render_inj (p q : GoPath) (hp : WFPath p = true) (hq : WFPath q = true)
    (h : p.render = q.render) : p = q := by
  obtain ⟨pa, pc⟩ := p
  obtain ⟨qa, qc⟩ := q
  have hpc : ∀ c ∈ pc, wfComp c = true := by
    intro c hc
    unfold WFPath at hp
    simp only [List.all_eq_true] at hp
    exact hp c hc
  have hqc : ∀ c ∈ qc, wfComp c = true := by
    intro c hc
    unfold WFPath at hq
    simp only [List.all_eq_true] at hq
    exact hq c hc
  have htl := congrArg String.toList h
  cases pa with
  | true =>
    cases qa with
    | true =>
      have h' : ('/' :: joinSlash pc : List Char) = '/' :: joinSlash qc := htl
      have h2 := (List.cons_eq_cons.mp h').2
      rw [joinSlash_inj pc qc hpc hqc h2]
    | false => exact (render_abs_ne_rel pc qc hqc htl).elim
  | false =>
    cases qa with
    | true => exact (render_abs_ne_rel qc pc hpc htl.symm).elim
    | false =>
      cases hpcs : pc with
      | nil =>
        cases hqcs : qc with
        | nil => rfl
        | cons c cs =>
          subst hpcs
          subst hqcs
          have h' : (['.'] : List Char) = joinSlash (c :: cs) := htl
          have hcw := hqc c (List.mem_cons_self c cs)
          obtain ⟨ch, rest, hct⟩ : ∃ ch rest, c.toList = ch :: rest := by
            cases hc : c.toList with
            | nil => exact absurd ((toList_eq_nil_iff c).mp hc) (wf_ne_empty c hcw)
            | cons ch rest => exact ⟨ch, rest, rfl⟩
          rcases joinSlash_cons_shape c cs with hs | ⟨t, hs⟩
          · rw [hs, hct] at h'
            obtain ⟨hch, hrest⟩ := List.cons_eq_cons.mp h'
            have hcdot : c = "." := by
              apply toList_inj
              rw [hct, ← hch, ← hrest]
              rfl
            exact absurd hcdot (wf_ne_dot c hcw)
          · rw [hs, hct, List.cons_append] at h'
            obtain ⟨hch, hrest⟩ := List.cons_eq_cons.mp h'
            have : rest ++ '/' :: t = [] := hrest.symm
            simp at this
      | cons c cs =>
        cases hqcs : qc with
        | nil =>
          subst hpcs
          subst hqcs
          have h' : joinSlash (c :: cs) = (['.'] : List Char) := htl
          have hcw := hpc c (List.mem_cons_self c cs)
          obtain ⟨ch, rest, hct⟩ : ∃ ch rest, c.toList = ch :: rest := by
            cases hc : c.toList with
            | nil => exact absurd ((toList_eq_nil_iff c).mp hc) (wf_ne_empty c hcw)
            | cons ch rest => exact ⟨ch, rest, rfl⟩
          rcases joinSlash_cons_shape c cs with hs | ⟨t, hs⟩
          · rw [hs, hct] at h'
            obtain ⟨hch, hrest⟩ := List.cons_eq_cons.mp h'
            have hcdot : c = "." := by
              apply toList_inj
              rw [hct, hch, hrest]
              rfl
            exact absurd hcdot (wf_ne_dot c hcw)
          · rw [hs, hct, List.cons_append] at h'
            obtain ⟨hch, hrest⟩ := List.cons_eq_cons.mp h'
            simp at hrest
        | cons c' cs' =>
          subst hpcs
          subst hqcs
          have h' : joinSlash (c :: cs) = joinSlash (c' :: cs') := htl
          rw [joinSlash_inj (c :: cs) (c' :: cs') hpc hqc h']

/-! ## C5: filter correctness -/

theorem visitOps_fileUp_mem (cfg : Cfg) (vs : List Visit) (k : String) (r : FileRow) :
    Op.fileUp k r ∈ visitOps cfg vs ↔
      ∃ p m ro, Visit.fileVisit p (some m) ro ∈ vs ∧ passesFilter cfg.filter p = true ∧
        k = p.render ∧ r = mkRow cfg p m ro := by
  unfold visitOps
  rw [List.mem_flatMap]
  constructor
  · rintro ⟨v, hv, hop⟩
    cases v with
    | dirVisit p meta =>
      cases meta with
      | none => exact absurd hop (by simp [visitOp])
      | some m => exact absurd hop (by simp [visitOp])
    | fileVisit p meta ro =>
      cases meta with
      | none => exact absurd hop (by simp [visitOp])
      | some m =>
        by_cases hf : passesFilter cfg.filter p
        · have hop' : Op.fileUp k r = Op.fileUp p.render (mkRow cfg p m ro) := by
            simpa [visitOp, hf] using hop
          injection hop' with h1 h2
          exact ⟨p, m, ro, hv, hf, h1, h2⟩
        · exact absurd hop (by simp [visitOp, hf])
  · rintro ⟨p, m, ro, hv, hf, rfl, rfl⟩
    exact ⟨.fileVisit p (some m) ro, hv, by simp [visitOp, hf]⟩

theorem visit_paths_eq_of_render (root : GoPath) (tree : FsNode)
    (hwr : WFPath root = true) (hwt : tree.wfNames = true)
    (p p' : GoPath)
    (hp : ∃ m ro, Visit.fileVisit p m ro ∈ nodeVisits root tree)
    (hp' : ∃ m ro, Visit.fileVisit p' m ro ∈ nodeVisits root tree)
    (h : p.render = p'.render) : p = p' := by
  obtain ⟨m, ro, hv⟩ := hp
  obtain ⟨m', ro', hv'⟩ := hp'
  have h1 := nodeVisits_wfPaths root tree hwr hwt _ hv
  have h2 := nodeVisits_wfPaths root tree hwr hwt _ hv'
  exact render_inj p p' h1 h2 h

theorem key_ext_consistent (cfg : Cfg) (root : GoPath) (tree : FsNode)
    (hwr : WFPath root = true) (hwt : tree.wfNames = true) :
    ∀ k r r', Op.fileUp k r ∈ visitOps cfg (nodeVisits root tree) →
      Op.fileUp k r' ∈ visitOps cfg (nodeVisits root tree) → r.ext = r'.ext := by
  intro k r r' h h'
  obtain ⟨p, m, ro, hv, hf, hk, hr⟩ := (visitOps_fileUp_mem cfg _ k r).mp h
  obtain ⟨p', m', ro', hv', hf', hk', hr'⟩ := (visitOps_fileUp_mem cfg _ k r').mp h'
  have hpp : p = p' :=
    visit_paths_eq_of_render root tree hwr hwt p p' ⟨_, _, hv⟩ ⟨_, _, hv'⟩
      (by rw [← hk, ← hk'])
  subst hpp
  rw [hr, hr']
  rfl

theorem lookup_some_ext_mem (rows : List (String × FileRow)) (k : String) (r : FileRow)
    (h : lookupRows rows k = some r) : r.ext ∈ rows.map (fun kv => kv.2.ext) := by
  induction rows with
  | nil => exact absurd h (by simp [lookupRows])
  | cons hd tl ih =>
    obtain ⟨k', r'⟩ := hd
    by_cases hk : k' = k
    · have : r' = r := by simpa [lookupRows, hk] using h
      subst this
      exact List.mem_cons_self _ _
    · have h' : lookupRows tl k = some r := by simpa [lookupRows, hk] using h
      exact List.mem_cons_of_mem _ (ih h')

theorem mem_exts_upsertRows (rows : List (String × FileRow)) (k : String) (r : FileRow)
    (t : String) :
    t ∈ (upsertFileRows rows k r).map (fun kv => kv.2.ext) ↔
      t ∈ rows.map (fun kv => kv.2.ext) ∨ (lookupRows rows k = none ∧ t = r.ext) := by
  induction rows with
  | nil => simp [upsertFileRows, lookupRows]
  | cons hd tl ih =>
    obtain ⟨k', r'⟩ := hd
    by_cases hk : k' = k
    · subst hk
      have h1 : upsertFileRows ((k', r') :: tl) k' r = (k', mergeFileRow r' r) :: tl := by
        unfold upsertFileRows
        rw [if_pos rfl]
      have h2 : lookupRows ((k', r') :: tl) k' = some r' := by
        unfold lookupRows
        rw [if_pos rfl]
      rw [h1, h2]
      simp only [List.map_cons, List.mem_cons]
      constructor
      · rintro (h | h)
        · exact Or.inl (Or.inl (by simpa [mergeFileRow] using h))
        · exact Or.inl (Or.inr h)
      · rintro ((h | h) | ⟨hn, -⟩)
        · exact Or.inl (by simpa [mergeFileRow] using h)
        · exact Or.inr h
        · exact absurd hn (by simp)
    · simp only [upsertFileRows, if_neg hk, lookupRows, List.map_cons, List.mem_cons, ih]
      tauto

theorem mem_exts_upsertFile (db : DB) (k : String) (r : FileRow) (t : String) :
    t ∈ catalogedExts (upsertFile db k r) ↔
      t ∈ catalogedExts db ∨ (lookupFile db k = none ∧ t = r.ext) :=
  mem_exts_upsertRows db.files k r t

theorem mem_exts_applyOps (ops : List Op) :
    ∀ (db : DB) (t : String),
      (∀ k r r', Op.fileUp k r ∈ ops → Op.fileUp k r' ∈ ops → r.ext = r'.ext) →
      (∀ k r₀, lookupFile db k = some r₀ → ∀ r', Op.fileUp k r' ∈ ops → r'.ext = r₀.ext) →
      (t ∈ catalogedExts (applyOps db ops) ↔
        t ∈ catalogedExts db ∨ ∃ k r, Op.fileUp k r ∈ ops ∧ r.ext = t) := by
  induction ops with
  | nil =>
    intro db t _ _
    simp [applyOps]
  | cons op rest ih =>
    intro db t hK hdb
    have hK' : ∀ k r r', Op.fileUp k r ∈ rest → Op.fileUp k r' ∈ rest → r.ext = r'.ext :=
      fun k r r' h1 h2 => hK k r r' (List.mem_cons_of_mem op h1) (List.mem_cons_of_mem op h2)
    have hcons : applyOps db (op :: rest) = applyOps (applyOp db op) rest := by
      unfold applyOps
      rw [List.foldl_cons]
    rw [hcons]
    cases op with
    | folderUp k row =>
      have hdb' : ∀ k₀ r₀, lookupFile (applyOp db (.folderUp k row)) k₀ = some r₀ →
          ∀ r', Op.fileUp k₀ r' ∈ rest → r'.ext = r₀.ext := by
        intro k₀ r₀ hl r' hr'
        exact hdb k₀ r₀ hl r' (List.mem_cons_of_mem _ hr')
      rw [ih (applyOp db (.folderUp k row)) t hK' hdb']
      have hexts : catalogedExts (applyOp db (.folderUp k row)) = catalogedExts db := rfl
      rw [hexts]
      constructor
      · rintro (h | ⟨k', r', hm, he⟩)
        · exact Or.inl h
        · exact Or.inr ⟨k', r', List.mem_cons_of_mem _ hm, he⟩
      · rintro (h | ⟨k', r', hm, he⟩)
        · exact Or.inl h
        · rcases List.mem_cons.mp hm with heq | hm'
          · exact absurd heq (by simp)
          · exact Or.inr ⟨k', r', hm', he⟩
    | fileUp k row =>
      have hdb' : ∀ k₀ r₀, lookupFile (applyOp db (.fileUp k row)) k₀ = some r₀ →
          ∀ r', Op.fileUp k₀ r' ∈ rest → r'.ext = r₀.ext := by
        intro k₀ r₀ hl r' hr'
        by_cases hkk : k₀ = k
        · subst hkk
          have hl' : lookupRows (upsertFileRows db.files k₀ row) k₀ = some r₀ := hl
          rw [lookupRows_upsertFileRows] at hl'
          cases hold : lookupRows db.files k₀ with
          | some old =>
            rw [hold] at hl'
            have hr₀ : r₀ = mergeFileRow old row := by simpa using hl'.symm
            have hext : r₀.ext = old.ext := by rw [hr₀]; rfl
            rw [hext]
            exact hdb k₀ old hold r' (List.mem_cons_of_mem _ hr')
          | none =>
            rw [hold] at hl'
            have hr₀ : r₀ = row := by simpa using hl'.symm
            rw [hr₀]
            exact hK k₀ r' row (List.mem_cons_of_mem _ hr') (List.mem_cons_self _ _)
        · have hl' : lookupFile db k₀ = some r₀ := by
            have := hl
            show lookupRows db.files k₀ = some r₀
            rw [← lookupRows_upsertFileRows_ne db.files k₀ k row (Ne.symm hkk)]
            exact this
          exact hdb k₀ r₀ hl' r' (List.mem_cons_of_mem _ hr')
      rw [ih (applyOp db (.fileUp k row)) t hK' hdb']
      have hexts := mem_exts_upsertFile db k row t
      constructor
      · rintro (h | ⟨k', r', hm, he⟩)
        · rcases hexts.mp h with h' | ⟨-, h'⟩
          · exact Or.inl h'
          · exact Or.inr ⟨k, row, List.mem_cons_self _ _, h'.symm⟩
        · exact Or.inr ⟨k', r', List.mem_cons_of_mem _ hm, he⟩
      · rintro (h | ⟨k', r', hm, he⟩)
        · exact Or.inl (hexts.mpr (Or.inl h))
        · rcases List.mem_cons.mp hm with heq | hm'
          · have hkk : k' = k ∧ r' = row := by
              injection heq with h1 h2
              exact ⟨h1, h2⟩
            obtain ⟨rfl, rfl⟩ := hkk
            cases hold : lookupFile db k' with
            | some old =>
              have hext : r'.ext = old.ext :=
                hdb k' old hold r' (List.mem_cons_self _ _)
              have : old.ext ∈ catalogedExts db := lookup_some_ext_mem db.files k' old hold
              exact Or.inl (hexts.mpr (Or.inl (by rw [← he, hext]; exact this)))
            | none =>
              exact Or.inl (hexts.mpr (Or.inr ⟨hold, he.symm⟩))
          · exact Or.inr ⟨k', r', hm', he⟩

mutual
theorem nodeVisits_errorFree (p : GoPath) (n : FsNode) (h : n.errorFree = true) :
    ∀ p' m ro, Visit.fileVisit p' m ro ∈ nodeVisits p n → m.isSome = true := by
  cases n with
  | file name meta ro0 =>
    intro p' m ro hv
    have : Visit.fileVisit p' m ro = Visit.fileVisit p meta ro0 := by
      simpa [nodeVisits] using hv
    injection this with h1 h2 h3
    subst h2
    simpa [FsNode.errorFree] using h
  | dir name meta readErr entries =>
    intro p' m ro hv
    unfold nodeVisits at hv
    rcases List.mem_cons.mp hv with heq | hv'
    · exact absurd heq (by simp)
    · unfold FsNode.errorFree at h
      simp only [Bool.and_eq_true, Bool.not_eq_true'] at h
      rw [if_neg (by simp [h.1.2])] at hv'
      exact forestVisits_errorFree p entries h.2 p' m ro hv'

theorem forestVisits_errorFree (p : GoPath) (f : FsForest) (h : f.errorFree = true) :
    ∀ p' m ro, Visit.fileVisit p' m ro ∈ forestVisits p f → m.isSome = true := by
  cases f with
  | nil =>
    intro p' m ro hv
    exact absurd hv (List.not_mem_nil _)
  | cons n rest =>
    intro p' m ro hv
    unfold FsForest.errorFree at h
    simp only [Bool.and_eq_true] at h
    unfold forestVisits at hv
    rcases List.mem_append.mp hv with hv' | hv'
    · exact nodeVisits_errorFree (p.child n.name) n h.1 p' m ro hv'
    · exact forestVisits_errorFree p rest h.2 p' m ro hv'
end

theorem passesFilter_iff (filter : List String) (p : GoPath) :
    passesFilter filter p = true ↔
      (filter = [] ∨ goToLower (goExt p) ∈ filter) := by
  unfold passesFilter
  by_cases he : filter.isEmpty
  · rw [if_pos he]
    simp [List.isEmpty_iff.mp he]
  · rw [if_neg he]
    have hne : filter ≠ [] := fun h0 => he (by simp [h0])
    simp [hne]

/-- C5 counterexample: with the filter `{".pdf"}` over a tree holding only a
text file, the cataloged extension set is empty, not `{".pdf"}` — the claim's
"exactly F" fails whenever the tree lacks a filtered extension. -/
theorem c5_filter_counterexample :
    ".pdf" ∈ cfgPdf.filter ∧
    ".pdf" ∉ catalogedExts (scanAndPersist cfgPdf emptyDB ⟨true, ["r"]⟩ treeTxt).db := by
  constructor <;> decide

/-- C5 amended: over a fresh store, with well-formed names, an error-free
tree, and no storage failures, the cataloged extension set equals the set of
extensions present in the tree intersected with F when F is non-empty
(so only "exactly F ∩ present", not "exactly F"), and equals the full set of
extensions present in the tree when F is empty. -/
theorem c5_filter_amended (cfg : Cfg) (root : GoPath) (tree : FsNode)
    (hnf : ∀ i, cfg.failOn i = false)
    (hwr : WFPath root = true) (hwt : tree.wfNames = true)
    (hef : tree.errorFree = true) :
    ∀ t, t ∈ catalogedExts (scanAndPersist cfg emptyDB root tree).db ↔
      (t ∈ treeExts root tree ∧ (cfg.filter = [] ∨ t ∈ cfg.filter)) := by
  intro t
  rw [(scan_ok_spec cfg emptyDB root tree hnf).2]
  rw [mem_exts_applyOps (visitOps cfg (nodeVisits root tree)) emptyDB t
    (key_ext_consistent cfg root tree hwr hwt)
    (fun k r₀ hl => absurd hl (by simp [lookupFile, emptyDB, lookupRows]))]
  have hempty : t ∈ catalogedExts emptyDB ↔ False := by simp [catalogedExts, emptyDB]
  rw [hempty]
  rw [false_or]
  constructor
  · rintro ⟨k, r, hm, he⟩
    obtain ⟨p, m, ro, hv, hf, -, hr⟩ := (visitOps_fileUp_mem cfg _ k r).mp hm
    have hext : r.ext = goToLower (goExt p) := by rw [hr]; rfl
    constructor
    · unfold treeExts
      rw [List.mem_filterMap]
      exact ⟨.fileVisit p (some m) ro, hv, by rw [← he, hext]⟩
    · rcases (passesFilter_iff cfg.filter p).mp hf with h0 | h0
      · exact Or.inl h0
      · exact Or.inr (by rw [← he, hext]; exact h0)
  · rintro ⟨htree, hfil⟩
    unfold treeExts at htree
    rw [List.mem_filterMap] at htree
    obtain ⟨v, hv, hsome⟩ := htree
    cases v with
    | dirVisit p meta => exact absurd hsome (by simp)
    | fileVisit p meta ro =>
      have ht : goToLower (goExt p) = t := by simpa using hsome
      obtain ⟨m, rfl⟩ : ∃ m', meta = some m' := by
        have := nodeVisits_errorFree root tree hef p meta ro hv
        cases meta with
        | none => exact absurd this (by simp)
        | some m' => exact ⟨m', rfl⟩
      have hf : passesFilter cfg.filter p = true := by
        rw [passesFilter_iff]
        rcases hfil with h0 | h0
        · exact Or.inl h0
        · exact Or.inr (by rw [ht]; exact h0)
      refine ⟨p.render, mkRow cfg p m ro, ?_, ?_⟩
      · exact (visitOps_fileUp_mem cfg _ _ _).mpr ⟨p, m, ro, hv, hf, rfl, rfl⟩
      · rw [show (mkRow cfg p m ro).ext = goToLower (goExt p) from rfl]
        exact ht

/-- C5 amended witness on the clean two-level tree with the empty filter. -/
theorem c5_filter_amended_witness :
    ".txt" ∈ catalogedExts (scanAndPersist cfg0 emptyDB ⟨true, ["r"]⟩ tree0).db ↔
      (".txt" ∈ treeExts ⟨true, ["r"]⟩ tree0 ∧
       (cfg0.filter = [] ∨ ".txt" ∈ cfg0.filter)) :=
  c5_filter_amended cfg0 ⟨true, ["r"]⟩ tree0 (fun _ => rfl) (by decide) (by decide)
    (by decide) ".txt"

/-- C10 witness: a small successful run ends with the single empty-path final
event. -/
theorem c10_progress_bound_witness :
    (scanAndPersist cfg0 emptyDB ⟨true, ["r"]⟩ tree0).events.getLast? =
      some ⟨(scanAndPersist cfg0 emptyDB ⟨true, ["r"]⟩ tree0).files,
            (scanAndPersist cfg0 emptyDB ⟨true, ["r"]⟩ tree0).dirs, "", cfg0.est⟩ :=
  (c10_progress_bound cfg0 emptyDB ⟨true, ["r"]⟩ tree0 (fun _ => rfl)
    (by decide) (by decide)).2.1

end SPCat
